import Mathlib

/-!
# Verification of the tailwind-color-reader core logic

Shallow embedding of `src/extension.ts`: the `oklch()` scanner
(`parseOklchFunctionsInRange`), the palette lookup (`findColorName` /
`approxEqual`), the annotation reconciliation (`annotateOklchColorsHandler`,
`removeOklchColorAnnotationsHandler`) and the replacement-string construction
(`selectColorHandler`).

Modelling conventions:
* Text is `List Char`; document offsets are list indices.  VS Code positions
  (line, character) are translated to absolute offsets; "the rest of the line
  after an offset" is the text up to the next `'\n'`/`'\r'`.
* JavaScript numbers are modelled as `ℚ`.  All numerals the program parses are
  unsigned plain decimal strings (no exponent), whose `parseFloat` value is an
  exact decimal rational; `NaN` is modelled as `Option.none`.
* The regex `/oklch\(\s*([\d.]+)\s+([\d.]+)\s+([\d.]+)(\s*\/\s*[\d.%]+)?\s*\)/g`
  is deterministic on every input (all the character classes involved are
  pairwise disjoint, so greedy matching never backtracks into a different
  parse); `tryMatch` below is its direct transcription, and the `exec` loop is
  `scan` (advance by one on failure, jump past the match on success).
* `vscode.workspace.applyEdit` applies a batch of non-overlapping edits
  atomically and rejects batches with overlapping ranges, leaving the document
  unchanged; `applyEditBatch` below models this.
-/

namespace TCR

/-- JS regex `\s` class, restricted to the code points the program can meet in
stylesheets (ASCII whitespace plus NBSP). -/
def isWs (c : Char) : Bool :=
  c = ' ' || c = '\t' || c = '\n' || c = '\r' || c = '\x0b' || c = '\x0c' || c = ' '

/-- JS regex class `[\d.]`. -/
def isNumC (c : Char) : Bool := c.isDigit || c = '.'

/-- JS regex class `[\d.%]`. -/
def isAlTok (c : Char) : Bool := c.isDigit || c = '.' || c = '%'

/-- Numeric value of a decimal digit character. -/
def digitVal (c : Char) : ℕ := c.toNat - 48

/-- Value of a most-significant-first digit string. -/
def valDigits (l : List Char) : ℕ := l.foldl (fun a c => 10 * a + digitVal c) 0

/-- Value of a fractional digit string (the part after the decimal point).
Written with `mkRat` so that the kernel can evaluate it (the `Rat` field
operations are irreducible); `fracValQ_eq` states the usual form. -/
def fracValQ (l : List Char) : ℚ := mkRat (valDigits l) (10 ^ l.length)

/-- Value of an integer digit string followed by a fractional digit string,
kernel-evaluable; `intFracQ_eq` states the usual form. -/
def intFracQ (ip fp : List Char) : ℚ :=
  mkRat (valDigits ip * 10 ^ fp.length + valDigits fp) (10 ^ fp.length)

/-- `q / 100`, kernel-evaluable; `divQ100_eq` states the usual form. -/
def divQ100 (q : ℚ) : ℚ := mkRat q.num (q.den * 100)

/-- `a - b` on `ℚ`, kernel-evaluable; `qsub_eq` states the usual form. -/
def qsub (a b : ℚ) : ℚ := mkRat (a.num * b.den - b.num * a.den) (a.den * b.den)

/-- JS `Math.round(q * 100)` (round half toward positive infinity),
kernel-evaluable; `jsRound100_eq` states it as `⌊q * 100 + 1/2⌋`. -/
def jsRound100 (q : ℚ) : ℤ := (200 * q.num + q.den) / (2 * q.den : ℕ)

/-- JS `parseFloat` on the strings the scanner feeds it: tokens drawn from the
classes `[\d.]` / `[\d.%]` (unsigned, no exponent).  `parseFloat` parses the
longest prefix of the form `digits+ ('.' digits*)?` or `'.' digits+` and
returns `NaN` (here `none`) when there is none. -/
def parseFloatPrefix (s : List Char) : Option ℚ :=
  if (s.takeWhile Char.isDigit).isEmpty then
    match s with
    | '.' :: r =>
      if (r.takeWhile Char.isDigit).isEmpty then none
      else some (fracValQ (r.takeWhile Char.isDigit))
    | _ => none
  else
    match s.dropWhile Char.isDigit with
    | '.' :: r =>
      some (intFracQ (s.takeWhile Char.isDigit) (r.takeWhile Char.isDigit))
    | _ => some ((valDigits (s.takeWhile Char.isDigit) : ℚ))

/-- One successful regex match, split into the capture groups and the
whitespace runs between them.  `rest` is the suffix of the input following the
closing parenthesis. -/
structure MatchData where
  ws1 : List Char
  t1 : List Char
  ws2 : List Char
  t2 : List Char
  ws3 : List Char
  t3 : List Char
  alphaGrp : Option (List Char)
  ws4 : List Char
  rest : List Char
deriving DecidableEq, Repr

/-- The literal `oklch(` that anchors every match. -/
def oklchLit : List Char := ['o', 'k', 'l', 'c', 'h', '(']

/-- Capture group 4 (`\s*\/\s*[\d.%]+`), empty when absent. -/
def MatchData.alphaPart (m : MatchData) : List Char := m.alphaGrp.getD []

/-- The full matched text (`match[0]` in the source). -/
def MatchData.core (m : MatchData) : List Char :=
  oklchLit ++ m.ws1 ++ m.t1 ++ m.ws2 ++ m.t2 ++ m.ws3 ++ m.t3 ++
    m.alphaPart ++ m.ws4 ++ [')']

/-- Length of the matched text. -/
def MatchData.klen (m : MatchData) : ℕ := m.core.length

/-- The optional alpha group `(\s*\/\s*[\d.%]+)?` of the regex: whitespace,
a slash, whitespace, then a nonempty `[\d.%]` run.  Returns the captured group
and the remaining suffix. -/
def tryAlpha (s : List Char) : Option (List Char × List Char) :=
  let w1 := s.takeWhile isWs
  match s.dropWhile isWs with
  | '/' :: r2 =>
    let w2 := r2.takeWhile isWs
    let r3 := r2.dropWhile isWs
    let run := r3.takeWhile isAlTok
    if run.isEmpty then none
    else some (w1 ++ '/' :: (w2 ++ run), r3.dropWhile isAlTok)
  | _ => none

/-- Body of the regex after the literal `oklch(`:
`\s*([\d.]+)\s+([\d.]+)\s+([\d.]+)(\s*\/\s*[\d.%]+)?\s*\)`. -/
def tryMatchBody (s1 : List Char) : Option MatchData :=
  if (s1.dropWhile isWs).takeWhile isNumC = [] then none else
  if ((s1.dropWhile isWs).dropWhile isNumC).takeWhile isWs = [] then none else
  if ((((s1.dropWhile isWs).dropWhile isNumC).dropWhile isWs).takeWhile isNumC) = [] then none else
  if (((((s1.dropWhile isWs).dropWhile isNumC).dropWhile isWs).dropWhile isNumC).takeWhile isWs) = [] then none else
  if ((((((s1.dropWhile isWs).dropWhile isNumC).dropWhile isWs).dropWhile isNumC).dropWhile isWs).takeWhile isNumC) = [] then none else
  let s2 := s1.dropWhile isWs
  let s4 := (s2.dropWhile isNumC).dropWhile isWs
  let s6 := (s4.dropWhile isNumC).dropWhile isWs
  let s7 := s6.dropWhile isNumC
  let ws1 := s1.takeWhile isWs
  let t1 := s2.takeWhile isNumC
  let ws2 := (s2.dropWhile isNumC).takeWhile isWs
  let t2 := s4.takeWhile isNumC
  let ws3 := (s4.dropWhile isNumC).takeWhile isWs
  let t3 := s6.takeWhile isNumC
  match tryAlpha s7 with
  | some (grp, s8) =>
    match s8.dropWhile isWs with
    | ')' :: s9 => some ⟨ws1, t1, ws2, t2, ws3, t3, some grp, s8.takeWhile isWs, s9⟩
    | _ => none
  | none =>
    match s7.dropWhile isWs with
    | ')' :: s9 => some ⟨ws1, t1, ws2, t2, ws3, t3, none, s7.takeWhile isWs, s9⟩
    | _ => none

/-- Attempt the regex
`oklch\(\s*([\d.]+)\s+([\d.]+)\s+([\d.]+)(\s*\/\s*[\d.%]+)?\s*\)` at the head
of `s`. -/
def tryMatch (s : List Char) : Option MatchData :=
  match s with
  | 'o' :: 'k' :: 'l' :: 'c' :: 'h' :: '(' :: s1 => tryMatchBody s1
  | _ => none

theorem mem_takeWhile_true {p : α → Bool} {l : List α} {x : α}
    (hx : x ∈ l.takeWhile p) : p x = true := by
  induction l with
  | nil => simp at hx
  | cons a t ih =>
    rw [List.takeWhile_cons] at hx
    by_cases hp : p a
    · simp [hp] at hx
      rcases hx with hx | hx
      · exact hx ▸ hp
      · exact ih hx
    · simp [hp] at hx

theorem takeWhile_append_all {p : α → Bool} {a : List α} (b : List α)
    (ha : ∀ x ∈ a, p x = true) :
    (a ++ b).takeWhile p = a ++ b.takeWhile p := by
  induction a with
  | nil => simp
  | cons x t ih =>
    have hx : p x = true := ha x (by simp)
    simp only [List.cons_append, List.takeWhile_cons, hx, if_true]
    rw [ih (fun y hy => ha y (by simp [hy]))]

theorem dropWhile_append_all {p : α → Bool} {a : List α} (b : List α)
    (ha : ∀ x ∈ a, p x = true) :
    (a ++ b).dropWhile p = b.dropWhile p := by
  induction a with
  | nil => simp
  | cons x t ih =>
    have hx : p x = true := ha x (by simp)
    simp only [List.cons_append, List.dropWhile_cons, hx, if_true]
    exact ih (fun y hy => ha y (by simp [hy]))

theorem takeWhile_append_stop {p : α → Bool} {a : List α} {c : α} (b : List α)
    (ha : ∀ x ∈ a, p x = true) (hc : p c = false) :
    (a ++ c :: b).takeWhile p = a := by
  rw [takeWhile_append_all _ ha, List.takeWhile_cons, hc]
  simp

theorem dropWhile_append_stop {p : α → Bool} {a : List α} {c : α} (b : List α)
    (ha : ∀ x ∈ a, p x = true) (hc : p c = false) :
    (a ++ c :: b).dropWhile p = c :: b := by
  rw [dropWhile_append_all _ ha, List.dropWhile_cons, hc]
  simp

theorem tryAlpha_sound {s : List Char} {g r : List Char}
    (h : tryAlpha s = some (g, r)) : s = g ++ r := by
  unfold tryAlpha at h
  split at h
  case _ c r2 hd =>
    by_cases hrun : (List.takeWhile isAlTok (List.dropWhile isWs r2)).isEmpty = true
    · simp [hrun] at h
    case _ =>
      simp only [if_neg hrun, Option.some.injEq, Prod.mk.injEq] at h
      obtain ⟨hg, hr⟩ := h
      subst hg; subst hr
      have h1 := List.takeWhile_append_dropWhile (p := isWs) (l := s)
      have h2 := List.takeWhile_append_dropWhile (p := isWs) (l := r2)
      have h3 := List.takeWhile_append_dropWhile (p := isAlTok) (l := r2.dropWhile isWs)
      conv_lhs => rw [← h1, hd, ← h2, ← h3]
      simp [List.append_assoc]
  · exact absurd h (by simp)

/-- The body of a successful match, i.e. `core` without the leading literal. -/
def MatchData.bodyChars (m : MatchData) : List Char :=
  m.ws1 ++ m.t1 ++ m.ws2 ++ m.t2 ++ m.ws3 ++ m.t3 ++ m.alphaPart ++ m.ws4 ++ [')']

theorem MatchData.core_eq (m : MatchData) :
    m.core = oklchLit ++ m.bodyChars := by
  simp [MatchData.core, MatchData.bodyChars, List.append_assoc]

theorem tryMatchBody_sound {s1 : List Char} {m : MatchData}
    (h : tryMatchBody s1 = some m) : s1 = m.bodyChars ++ m.rest := by
  unfold tryMatchBody at h
  split at h; · exact absurd h (by simp)
  split at h; · exact absurd h (by simp)
  split at h; · exact absurd h (by simp)
  split at h; · exact absurd h (by simp)
  split at h; · exact absurd h (by simp)
  simp only at h
  have e1 := List.takeWhile_append_dropWhile (p := isWs) (l := s1)
  have e2 := List.takeWhile_append_dropWhile (p := isNumC) (l := s1.dropWhile isWs)
  have e3 := List.takeWhile_append_dropWhile (p := isWs)
    (l := (s1.dropWhile isWs).dropWhile isNumC)
  have e4 := List.takeWhile_append_dropWhile (p := isNumC)
    (l := ((s1.dropWhile isWs).dropWhile isNumC).dropWhile isWs)
  have e5 := List.takeWhile_append_dropWhile (p := isWs)
    (l := (((s1.dropWhile isWs).dropWhile isNumC).dropWhile isWs).dropWhile isNumC)
  have e6 := List.takeWhile_append_dropWhile (p := isNumC)
    (l := ((((s1.dropWhile isWs).dropWhile isNumC).dropWhile isWs).dropWhile isNumC).dropWhile isWs)
  split at h
  case _ grp s8 halpha =>
    have halpha' := tryAlpha_sound halpha
    split at h
    case _ s9 hdrop =>
      injection h with h
      subst h
      have e7 := List.takeWhile_append_dropWhile (p := isWs) (l := s8)
      simp only [MatchData.bodyChars, MatchData.alphaPart, Option.getD_some]
      simp only [List.append_assoc]
      conv_lhs => rw [← e1]
      congr 1
      conv_lhs => rw [← e2]
      congr 1
      conv_lhs => rw [← e3]
      congr 1
      conv_lhs => rw [← e4]
      congr 1
      conv_lhs => rw [← e5]
      congr 1
      conv_lhs => rw [← e6]
      congr 1
      rw [halpha']
      congr 1
      conv_lhs => rw [← e7, hdrop]
      simp
    · exact absurd h (by simp)
  case _ halpha =>
    split at h
    case _ s9 hdrop =>
      injection h with h
      subst h
      simp only [MatchData.bodyChars, MatchData.alphaPart, Option.getD_none]
      simp only [List.append_assoc, List.nil_append]
      conv_lhs => rw [← e1]
      congr 1
      conv_lhs => rw [← e2]
      congr 1
      conv_lhs => rw [← e3]
      congr 1
      conv_lhs => rw [← e4]
      congr 1
      conv_lhs => rw [← e5]
      congr 1
      conv_lhs => rw [← e6]
      congr 1
      conv_lhs => rw [← List.takeWhile_append_dropWhile (p := isWs)
        (l := (((((s1.dropWhile isWs).dropWhile isNumC).dropWhile isWs).dropWhile
          isNumC).dropWhile isWs).dropWhile isNumC), hdrop]
      simp
    · exact absurd h (by simp)

theorem tryMatch_sound {s : List Char} {m : MatchData}
    (h : tryMatch s = some m) : s = m.core ++ m.rest := by
  unfold tryMatch at h
  split at h
  case _ s1 =>
    rw [MatchData.core_eq, List.append_assoc, ← tryMatchBody_sound h]
    rfl
  · exact absurd h (by simp)

theorem MatchData.klen_pos (m : MatchData) : 0 < m.klen := by
  simp [MatchData.klen, MatchData.core, oklchLit]

theorem tryMatch_rest_lt {s : List Char} {m : MatchData}
    (h : tryMatch s = some m) : m.rest.length < s.length := by
  have hs := tryMatch_sound h
  have h1 : s.length = m.klen + m.rest.length := by
    rw [hs]; simp [MatchData.klen]
  have h2 := m.klen_pos
  omega

/-- Fuel-driven body of the `regex.exec` loop (structural recursion on the
fuel, so that the kernel can evaluate it; `scan` supplies enough fuel). -/
def scanF : ℕ → List Char → ℕ → List (ℕ × MatchData)
  | 0, _, _ => []
  | _ + 1, [], _ => []
  | fuel + 1, c :: s, pos =>
    match tryMatch (c :: s) with
    | some m => (pos, m) :: scanF fuel m.rest (pos + m.klen)
    | none => scanF fuel s (pos + 1)

/-- The `regex.exec` loop: find the leftmost match at or after the current
position, emit it, and continue just past its end (`lastIndex`). -/
def scan (s : List Char) (pos : ℕ) : List (ℕ × MatchData) := scanF s.length s pos

theorem scanF_congr : ∀ {f1 f2 : ℕ} {s : List Char} (pos : ℕ),
    s.length ≤ f1 → s.length ≤ f2 → scanF f1 s pos = scanF f2 s pos := by
  intro f1
  induction f1 with
  | zero =>
    intro f2 s pos h1 h2
    have hs : s = [] := List.length_eq_zero.mp (by omega)
    subst hs
    cases f2 <;> rfl
  | succ f ih =>
    intro f2 s pos h1 h2
    cases s with
    | nil => cases f2 <;> rfl
    | cons c cs =>
      have hlen : cs.length + 1 ≤ f2 := by simpa using h2
      cases f2 with
      | zero => omega
      | succ g =>
        show (match tryMatch (c :: cs) with
          | some m => (pos, m) :: scanF f m.rest (pos + m.klen)
          | none => scanF f cs (pos + 1)) =
          (match tryMatch (c :: cs) with
          | some m => (pos, m) :: scanF g m.rest (pos + m.klen)
          | none => scanF g cs (pos + 1))
        cases hm : tryMatch (c :: cs) with
        | some m =>
          have hr := tryMatch_rest_lt hm
          have e := @ih g m.rest (pos + m.klen)
            (by simp at hr h1 ⊢; omega) (by simp at hr h2 ⊢; omega)
          simp only [e]
        | none =>
          have e := @ih g cs (pos + 1)
            (by simp at h1 ⊢; omega) (by simp at hlen ⊢; omega)
          simp only [e]

/-- A custom induction principle following the scanner's recursion. -/
theorem scan_induction {P : List Char → ℕ → Prop}
    (h1 : ∀ pos, P [] pos)
    (h2 : ∀ c s pos m, tryMatch (c :: s) = some m →
      P m.rest (pos + m.klen) → P (c :: s) pos)
    (h3 : ∀ c s pos, tryMatch (c :: s) = none → P s (pos + 1) → P (c :: s) pos) :
    ∀ s pos, P s pos := by
  have key : ∀ n s, s.length ≤ n → ∀ pos, P s pos := by
    intro n
    induction n with
    | zero =>
      intro s hs pos
      have : s = [] := List.length_eq_zero.mp (by omega)
      subst this
      exact h1 pos
    | succ n ih =>
      intro s hs pos
      cases s with
      | nil => exact h1 pos
      | cons c cs =>
        cases hm : tryMatch (c :: cs) with
        | some m =>
          refine h2 c cs pos m hm (ih m.rest ?_ _)
          have := tryMatch_rest_lt hm
          simp at this hs ⊢
          omega
        | none =>
          refine h3 c cs pos hm (ih cs ?_ _)
          simp at hs
          omega
  exact fun s pos => key s.length s le_rfl pos

/-- A parsed OKLCH color record (`ParsedOklch` in the source).  `start`/`stop`
are the absolute offsets of the matched `oklch(...)` expression (the
`vscode.Range` of the source, as offsets). -/
structure ParsedOklch where
  l : ℚ
  c : ℚ
  h : ℚ
  alpha : Option ℚ
  alphaString : Option (List Char)
  start : ℕ
  stop : ℕ
deriving DecidableEq, Repr

/-- `alphaString.match(/[\d.%]+/)`: the first maximal `[\d.%]` run of a
string, if any. -/
def firstTokRun : List Char → Option (List Char)
  | [] => none
  | c :: r => if isAlTok c then some (c :: r.takeWhile isAlTok) else firstTokRun r

/-- Lines 208-219 of the source: numeric alpha from the captured alpha group.
`none` models both `undefined` (no `[\d.%]+` submatch) and `NaN`. -/
def alphaOfGroup (g : List Char) : Option ℚ :=
  match firstTokRun g with
  | none => none
  | some run =>
    if run.getLast? = some '%' then
      (parseFloatPrefix run.dropLast).map (fun q => divQ100 q)
    else parseFloatPrefix run

/-- Lines 201-238 of the source: turn one regex match into a `ParsedOklch`,
or skip it (`none`).  A match is skipped when `l`, `c` or `h` is `NaN`, or when
the alpha group is present but its numeric value is `undefined`/`NaN`. -/
def emitColor (pos : ℕ) (m : MatchData) : Option ParsedOklch :=
  match parseFloatPrefix m.t1, parseFloatPrefix m.t2, parseFloatPrefix m.t3 with
  | some l, some c, some h =>
    match m.alphaGrp with
    | some g =>
      match alphaOfGroup g with
      | some a => some ⟨l, c, h, some a, some g, pos, pos + m.klen⟩
      | none => none
    | none => some ⟨l, c, h, none, none, pos, pos + m.klen⟩
  | _, _, _ => none

/-- `parseOklchFunctionsInRange` (lines 194-241) on a whole text. -/
def parseOklchFunctionsInRange (t : List Char) : List ParsedOklch :=
  (scan t 0).filterMap (fun pm => emitColor pm.1 pm.2)

/-- `approxEqual` (lines 177-179); the default tolerance is `1e-4`.
`approxEqual_iff` states it as `|a - b| < eps`. -/
def approxEqual (a b : ℚ) (eps : ℚ := mkRat 1 10000) : Bool := |qsub a b| < eps

/-- An entry of the palette loaded from `map.json` (`ColorMapEntry`), with the
nested `oklch` object flattened. -/
structure ColorMapEntry where
  name : List Char
  l : ℚ
  c : ℚ
  h : ℚ
deriving DecidableEq, Repr

/-- `findColorName` (lines 182-191): linear scan, first entry approximately
equal in all three components wins.  The global `colorMap` is passed as a
parameter. -/
def findColorName (l c h : ℚ) : List ColorMapEntry → Option (List Char)
  | [] => none
  | e :: es =>
    if approxEqual e.l l && approxEqual e.c c && approxEqual e.h h then some e.name
    else findColorName l c h es

/-- Fuel-driven digit rendering (structural, kernel-evaluable). -/
def natDigitsF : ℕ → ℕ → List Char
  | 0, _ => []
  | fuel + 1, n =>
    if n < 10 then [Char.ofNat (48 + n)]
    else natDigitsF fuel (n / 10) ++ [Char.ofNat (48 + n % 10)]

/-- Most-significant-first decimal digit string of a natural number, as JS
renders integers. -/
def natDigits (n : ℕ) : List Char := natDigitsF (n + 1) n

/-- JS template-literal rendering of an integer. -/
def intChars (i : ℤ) : List Char :=
  if i < 0 then '-' :: natDigits i.natAbs else natDigits i.natAbs

/-- The `Custom` fallback label. -/
def customLabel : List Char := ['C', 'u', 's', 't', 'o', 'm']

/-- Lines 126-133: the base comment text for a color - resolved name or
`Custom`, plus ` / {round(alpha*100)}%` when alpha is present and not ≈ 1. -/
def baseCommentText (tbl : List ColorMapEntry) (l c h : ℚ) (alpha : Option ℚ) :
    List Char :=
  let base := (findColorName l c h tbl).getD customLabel
  match alpha with
  | some a =>
    if !approxEqual a 1 (mkRat 1 1000) then
      base ++ [' ', '/', ' '] ++ intChars (jsRound100 a) ++ ['%']
    else base
  | none => base

/-- Line 134: the full comment text ` /* {base} */` (with its leading space). -/
def commentTextFor (tbl : List ColorMapEntry) (l c h : ℚ) (alpha : Option ℚ) :
    List Char :=
  [' ', '/', '*', ' '] ++ baseCommentText tbl l c h alpha ++ [' ', '*', '/']

/-- JS `String.prototype.trim`. -/
def jsTrim (s : List Char) : List Char :=
  ((s.dropWhile isWs).reverse.dropWhile isWs).reverse

/-- `document.lineAt(pos.line).text.substring(pos.character)`: the text from
offset `pos` to the end of its line (line separators `\n`, `\r\n`, `\r`). -/
def lineTextAfter (t : List Char) (pos : ℕ) : List Char :=
  (t.drop pos).takeWhile (fun c => !(c = '\n' || c = '\r'))

/-- Split a comment tail at the first `*/`, as the lazy regex `\/\*.*?\*\/`
does: returns the inner text and the suffix after the closing `*/`. -/
def splitCommentClose : List Char → Option (List Char × List Char)
  | '*' :: '/' :: r => some ([], r)
  | c :: r => (splitCommentClose r).map (fun p => (c :: p.1, p.2))
  | [] => none

/-- The regex `^(\s*)(\/\*.*?\*\/)` on the text following a color on its
line: returns the leading whitespace and the comment text (group 2). -/
def commentAfter (ta : List Char) : Option (List Char × List Char) :=
  match ta.dropWhile isWs with
  | '/' :: '*' :: r =>
    match splitCommentClose r with
    | some (inner, _) =>
      some (ta.takeWhile isWs, '/' :: '*' :: (inner ++ ['*', '/']))
    | none => none
  | _ => none

/-- `String.prototype.indexOf` for the first occurrence of `needle` in
`hay` (only used when `needle` does occur). -/
def indexOfList (needle : List Char) : List Char → ℕ
  | [] => 0
  | c :: t => if needle.isPrefixOf (c :: t) then 0 else 1 + indexOfList needle t

/-- One text edit: replace the half-open offset range `[start, stop)` by
`txt`.  Inserts have `start = stop`, deletions have `txt = []`. -/
structure Edit where
  start : ℕ
  stop : ℕ
  txt : List Char
deriving DecidableEq, Repr

/-- Apply a single edit to a text. -/
def applyEdit1 (e : Edit) (t : List Char) : List Char :=
  t.take e.start ++ e.txt ++ t.drop e.stop

/-- Two edits do not overlap (touching ranges are allowed). -/
def Edit.disj (a b : Edit) : Bool := a.stop ≤ b.start || b.stop ≤ a.start

/-- All edits in the batch are pairwise non-overlapping. -/
def pairwiseDisj : List Edit → Bool
  | [] => true
  | e :: es => es.all (fun f => e.disj f) && pairwiseDisj es

/-- Insert an edit into a list kept sorted by decreasing `start`. -/
def insertEditDesc (e : Edit) : List Edit → List Edit
  | [] => [e]
  | f :: fs => if f.start ≤ e.start then e :: f :: fs else f :: insertEditDesc e fs

/-- Sort edits by decreasing start offset. -/
def sortEditsDesc (es : List Edit) : List Edit := es.foldr insertEditDesc []

/-- `vscode.workspace.applyEdit` on a batch of non-overlapping edits: apply
them back-to-front so earlier offsets stay valid. -/
def applyEditsDesc (es : List Edit) (t : List Char) : List Char :=
  (sortEditsDesc es).foldl (fun acc e => applyEdit1 e acc) t

/-- `vscode.workspace.applyEdit`: overlapping batches are rejected and leave
the document unchanged. -/
def applyEditBatch (es : List Edit) (t : List Char) : List Char :=
  if pairwiseDisj es then applyEditsDesc es t else t

/-- Lines 124-164 of `annotateOklchColorsHandler`, for one parsed color:
the edit this iteration adds to the `WorkspaceEdit`, if any. -/
def annotateEditFor (tbl : List ColorMapEntry) (t : List Char)
    (pc : ParsedOklch) : Option Edit :=
  let cmt := commentTextFor tbl pc.l pc.c pc.h pc.alpha
  let ta := lineTextAfter t pc.stop
  match commentAfter ta with
  | some (_, ex) =>
    if ex = jsTrim cmt then none
    else
      some ⟨pc.stop + indexOfList ex ta, pc.stop + indexOfList ex ta + ex.length, jsTrim cmt⟩
  | none => some ⟨pc.stop, pc.stop, cmt⟩

/-- The batch of edits `annotateOklchColorsHandler` builds (reverse source
order, line 124). -/
def annotateEdits (tbl : List ColorMapEntry) (t : List Char) : List Edit :=
  (parseOklchFunctionsInRange t).reverse.filterMap (annotateEditFor tbl t)

/-- The whole Annotate command on a text snapshot. -/
def annotateRun (tbl : List ColorMapEntry) (t : List Char) : List Char :=
  applyEditBatch (annotateEdits tbl t) t

/-- Lines 64-86 of `removeOklchColorAnnotationsHandler`, for one parsed
color: delete the whitespace-plus-comment span following it, if present. -/
def removeEditFor (t : List Char) (pc : ParsedOklch) : Option Edit :=
  match commentAfter (lineTextAfter t pc.stop) with
  | some (w, ex) => some ⟨pc.stop, pc.stop + w.length + ex.length, []⟩
  | none => none

/-- The batch of edits `removeOklchColorAnnotationsHandler` builds. -/
def removeEdits (t : List Char) : List Edit :=
  (parseOklchFunctionsInRange t).reverse.filterMap (removeEditFor t)

/-- The whole RemoveAnnotations command on a text snapshot. -/
def removeAnnotationsRun (t : List Char) : List Char :=
  applyEditBatch (removeEdits t) t

/-- Zero-pad a digit string on the left to length `k`. -/
def padZeros (k : ℕ) (ds : List Char) : List Char :=
  List.replicate (k - ds.length) '0' ++ ds

/-- Plain-decimal rendering of the decimal rational `n / 10^k`, as JS
renders the palette numbers in template literals (all palette values lie in
the plain-decimal formatting range of `Number.prototype.toString`). -/
def serializeDec (n k : ℕ) : List Char :=
  if k = 0 then natDigits n
  else natDigits (n / 10 ^ k) ++ '.' :: padZeros k (natDigits (n % 10 ^ k))

/-- The value of the decimal `n / 10^k` (kernel-evaluable; `decVal_eq`
states the usual form). -/
def decVal (n k : ℕ) : ℚ := mkRat n (10 ^ k)

/-- A palette entry together with the decimal numerals `map.json` wrote its
components with (`l = ln/10^lk` and so on). -/
structure PaletteDec where
  name : List Char
  ln : ℕ
  lk : ℕ
  cn : ℕ
  ck : ℕ
  hn : ℕ
  hk : ℕ
deriving DecidableEq, Repr

/-- The `ColorMapEntry` a `PaletteDec` denotes. -/
def PaletteDec.entry (p : PaletteDec) : ColorMapEntry :=
  ⟨p.name, decVal p.ln p.lk, decVal p.cn p.ck, decVal p.hn p.hk⟩

/-- Lines 268-274 of `selectColorHandler`: the replacement string
`oklch(${l} ${c} ${h}` + original alpha string + `)`. -/
def selectReplacement (p : PaletteDec) (alphaStr : Option (List Char)) :
    List Char :=
  oklchLit ++ serializeDec p.ln p.lk ++ ' ' :: serializeDec p.cn p.ck ++
    ' ' :: serializeDec p.hn p.hk ++ (match alphaStr with | some s => s | none => []) ++ [')']

/-- Shape of a captured alpha group: `\s*\/\s*[\d.%]+`. -/
def AlphaShape (g : List Char) : Prop :=
  ∃ wa wb run, g = wa ++ '/' :: (wb ++ run) ∧ (∀ x ∈ wa, isWs x) ∧
    (∀ x ∈ wb, isWs x) ∧ run ≠ [] ∧ (∀ x ∈ run, isAlTok x)

/-- Structural well-formedness of a match: each segment consists of the
characters of its regex class, with the mandatory segments nonempty. -/
structure MatchWf (m : MatchData) : Prop where
  ws1_ws : ∀ x ∈ m.ws1, isWs x
  t1_ne : m.t1 ≠ []
  t1_num : ∀ x ∈ m.t1, isNumC x
  ws2_ne : m.ws2 ≠ []
  ws2_ws : ∀ x ∈ m.ws2, isWs x
  t2_ne : m.t2 ≠ []
  t2_num : ∀ x ∈ m.t2, isNumC x
  ws3_ne : m.ws3 ≠ []
  ws3_ws : ∀ x ∈ m.ws3, isWs x
  t3_ne : m.t3 ≠ []
  t3_num : ∀ x ∈ m.t3, isNumC x
  ws4_ws : ∀ x ∈ m.ws4, isWs x
  alpha_shape : ∀ g ∈ m.alphaGrp, AlphaShape g

/-- Reference description of an edit batch's effect: the text is kept up to
the next edit's range, the replacement text is emitted, and splicing continues
after the range (`i` is the absolute offset already produced). -/
def spliceFrom (t : List Char) : ℕ → List Edit → List Char
  | i, [] => t.drop i
  | i, e :: es => (t.drop i).take (e.start - i) ++ e.txt ++ spliceFrom t e.stop es

/-- The edits start at or after `lo`, each range is well formed, and the
ranges are ascending and pairwise non-overlapping. -/
def editsOrdered : ℕ → List Edit → Prop
  | _, [] => True
  | lo, e :: es => lo ≤ e.start ∧ e.start ≤ e.stop ∧ editsOrdered e.stop es

/-- A character that renders safely inside a block comment: not the
parenthesis that anchors `oklch(`, not the `*` that would close the comment
early, and not a line separator. -/
def okChar (c : Char) : Bool := !(c = '(' || c = '*' || c = '\n' || c = '\r')

/-- A label all of whose characters render safely inside a block comment. -/
def okLabel (xs : List Char) : Bool := xs.all okChar

/-- Every palette name renders safely into a comment — true of the palette
`map.json` ships (lowercase words, digits and dashes). -/
def benignTbl (tbl : List ColorMapEntry) : Bool := tbl.all (fun e => okLabel e.name)

/-- Reference description of one Annotate pass over a comment-free text:
after every emitted match's span the comment text is inserted; gaps and
skipped matches are copied unchanged (fuel-driven like `scanF`). -/
def annotInsF (tbl : List ColorMapEntry) : ℕ → List Char → List Char
  | 0, s => s
  | _ + 1, [] => []
  | fuel + 1, c :: s =>
    match tryMatch (c :: s) with
    | some m =>
      match emitColor 0 m with
      | some pc =>
        m.core ++ commentTextFor tbl pc.l pc.c pc.h pc.alpha ++
          annotInsF tbl fuel m.rest
      | none => m.core ++ annotInsF tbl fuel m.rest
    | none => c :: annotInsF tbl fuel s

/-- One Annotate pass over a comment-free text (reference description). -/
def annotIns (tbl : List ColorMapEntry) (s : List Char) : List Char :=
  annotInsF tbl s.length s

/-- The insertion batch Annotate computes on a comment-free text, in source
order: one insertion of the comment text right after each emitted match
(`pos` is the absolute offset of the current suffix). -/
def insEditsF (tbl : List ColorMapEntry) : ℕ → ℕ → List Char → List Edit
  | 0, _, _ => []
  | _ + 1, _, [] => []
  | fuel + 1, pos, c :: s =>
    match tryMatch (c :: s) with
    | some m =>
      match emitColor 0 m with
      | some pc =>
        ⟨pos + m.klen, pos + m.klen, commentTextFor tbl pc.l pc.c pc.h pc.alpha⟩ ::
          insEditsF tbl fuel (pos + m.klen) m.rest
      | none => insEditsF tbl fuel (pos + m.klen) m.rest
    | none => insEditsF tbl fuel (pos + 1) s

/-- The deletion batch RemoveAnnotations computes on the annotated text, in
source order: one deletion of the inserted whitespace-plus-comment span after
each emitted match (`pos` is the absolute offset in the annotated text). -/
def remEditsF (tbl : List ColorMapEntry) : ℕ → ℕ → List Char → List Edit
  | 0, _, _ => []
  | _ + 1, _, [] => []
  | fuel + 1, pos, c :: s =>
    match tryMatch (c :: s) with
    | some m =>
      match emitColor 0 m with
      | some pc =>
        ⟨pos + m.klen,
          pos + m.klen + (commentTextFor tbl pc.l pc.c pc.h pc.alpha).length,
          []⟩ ::
          remEditsF tbl fuel
            (pos + m.klen + (commentTextFor tbl pc.l pc.c pc.h pc.alpha).length)
            m.rest
      | none => remEditsF tbl fuel (pos + m.klen) m.rest
    | none => remEditsF tbl fuel (pos + 1) s

end TCR

namespace TCR

theorem ws_not_num {c : Char} (h : isWs c = true) : isNumC c = false := by
  simp only [isWs, Bool.or_eq_true, decide_eq_true_eq] at h
  rcases h with ((((((h | h) | h) | h) | h) | h) | h) <;> subst h <;> decide

theorem ws_not_al {c : Char} (h : isWs c = true) : isAlTok c = false := by
  simp only [isWs, Bool.or_eq_true, decide_eq_true_eq] at h
  rcases h with ((((((h | h) | h) | h) | h) | h) | h) <;> subst h <;> decide

theorem not_of_imp_false {p q : Char → Bool} {c : Char}
    (hpq : ∀ d, p d = true → q d = false) (h : q c = true) : p c = false := by
  cases hp : p c
  · rfl
  · rw [hpq c hp] at h; exact absurd h (by simp)

theorem num_not_ws {c : Char} (h : isNumC c = true) : isWs c = false :=
  not_of_imp_false (fun _ hd => ws_not_num hd) h

theorem al_not_ws {c : Char} (h : isAlTok c = true) : isWs c = false :=
  not_of_imp_false (fun _ hd => ws_not_al hd) h

theorem num_al {c : Char} (h : isNumC c = true) : isAlTok c = true := by
  simp only [isNumC, Bool.or_eq_true] at h
  simp only [isAlTok, Bool.or_eq_true]
  tauto

/-- `takeWhile`/`dropWhile` across an append whose left part satisfies `p`
and whose right part starts with a failing character (or is empty). -/
theorem takeWhile_append_head {p : α → Bool} {a b : List α}
    (ha : ∀ x ∈ a, p x = true) (hb : ∀ c, b.head? = some c → p c = false) :
    (a ++ b).takeWhile p = a ∧ (a ++ b).dropWhile p = b := by
  cases b with
  | nil =>
    constructor
    · rw [List.append_nil]
      induction a with
      | nil => rfl
      | cons x t ih =>
        have hx := ha x (by simp)
        rw [List.takeWhile_cons, hx]
        simp only [if_true]
        rw [ih (fun y hy => ha y (by simp [hy]))]
    · rw [List.append_nil]
      induction a with
      | nil => rfl
      | cons x t ih =>
        have hx := ha x (by simp)
        rw [List.dropWhile_cons, hx]
        simp only [if_true]
        exact ih (fun y hy => ha y (by simp [hy]))
  | cons c bs =>
    have hc : p c = false := hb c rfl
    exact ⟨takeWhile_append_stop _ ha hc, dropWhile_append_stop _ ha hc⟩

theorem tryAlpha_inv {s g r : List Char} (h : tryAlpha s = some (g, r)) :
    AlphaShape g := by
  unfold tryAlpha at h
  split at h
  case _ c r2 hd =>
    by_cases hrun : (List.takeWhile isAlTok (List.dropWhile isWs r2)).isEmpty = true
    · simp [hrun] at h
    case _ =>
      simp only [if_neg hrun, Option.some.injEq, Prod.mk.injEq] at h
      obtain ⟨hg, hr⟩ := h
      refine ⟨s.takeWhile isWs, r2.takeWhile isWs,
        (r2.dropWhile isWs).takeWhile isAlTok, hg.symm,
        fun x hx => mem_takeWhile_true hx, fun x hx => mem_takeWhile_true hx,
        ?_, fun x hx => mem_takeWhile_true hx⟩
      intro hnil
      rw [hnil] at hrun
      exact hrun rfl
  · exact absurd h (by simp)

theorem tryMatchBody_inv {s1 : List Char} {m : MatchData}
    (h : tryMatchBody s1 = some m) : MatchWf m := by
  unfold tryMatchBody at h
  split at h; · exact absurd h (by simp)
  split at h; · exact absurd h (by simp)
  split at h; · exact absurd h (by simp)
  split at h; · exact absurd h (by simp)
  split at h; · exact absurd h (by simp)
  case _ g1 g2 g3 g4 g5 =>
  simp only at h
  split at h
  case _ grp s8 halpha =>
    split at h
    case _ s9 hdrop =>
      injection h with h
      subst h
      exact ⟨fun x hx => mem_takeWhile_true hx, g1, fun x hx => mem_takeWhile_true hx,
        g2, fun x hx => mem_takeWhile_true hx, g3, fun x hx => mem_takeWhile_true hx,
        g4, fun x hx => mem_takeWhile_true hx, g5, fun x hx => mem_takeWhile_true hx,
        fun x hx => mem_takeWhile_true hx,
        fun g hg => by cases hg; exact tryAlpha_inv halpha⟩
    · exact absurd h (by simp)
  case _ halpha =>
    split at h
    case _ s9 hdrop =>
      injection h with h
      subst h
      exact ⟨fun x hx => mem_takeWhile_true hx, g1, fun x hx => mem_takeWhile_true hx,
        g2, fun x hx => mem_takeWhile_true hx, g3, fun x hx => mem_takeWhile_true hx,
        g4, fun x hx => mem_takeWhile_true hx, g5, fun x hx => mem_takeWhile_true hx,
        fun x hx => mem_takeWhile_true hx,
        fun g hg => by cases hg⟩
    · exact absurd h (by simp)

theorem tryMatch_inv {s : List Char} {m : MatchData}
    (h : tryMatch s = some m) : MatchWf m := by
  unfold tryMatch at h
  split at h
  · exact tryMatchBody_inv h
  · exact absurd h (by simp)

theorem head?_mem_self {a : List α} {c : α} (h : a.head? = some c) : c ∈ a := by
  cases a with
  | nil => simp at h
  | cons x t => injection h with h; subst h; simp

theorem head_fail_append {p q : α → Bool} {t : List α} (rest' : List α)
    (ht : t ≠ []) (hq : ∀ x ∈ t, q x = true) (hpq : ∀ d, q d = true → p d = false) :
    ∀ c, (t ++ rest').head? = some c → p c = false := by
  cases t with
  | nil => exact absurd rfl ht
  | cons x xs =>
    intro c hc
    injection hc with hc
    subst hc
    exact hpq _ (hq _ (by simp))

theorem tryMatch_lit (x : List Char) :
    tryMatch (oklchLit ++ x) = tryMatchBody x := rfl

theorem head_fail_ws_cons {p : Char → Bool} {wa x : List Char} {c0 : Char}
    (hwa : ∀ y ∈ wa, isWs y = true) (hws : ∀ d, isWs d = true → p d = false)
    (hc0 : p c0 = false) :
    ∀ c, ((wa ++ (c0 :: x)).head? = some c) → p c = false := by
  cases wa with
  | nil => intro c hc; injection hc with hc; subst hc; exact hc0
  | cons w wt =>
    intro c hc
    injection hc with hc
    subst hc
    exact hws _ (hwa _ (by simp))

/-- Reconstruction: a well-formed segment decomposition followed by anything
is matched by the regex exactly as written. -/
theorem tryMatch_build {ws1 t1 ws2 t2 ws3 t3 ws4 : List Char}
    (ag : Option (List Char)) (z : List Char)
    (hw1 : ∀ x ∈ ws1, isWs x = true)
    (ht1 : t1 ≠ []) (ht1n : ∀ x ∈ t1, isNumC x = true)
    (hw2 : ws2 ≠ []) (hw2w : ∀ x ∈ ws2, isWs x = true)
    (ht2 : t2 ≠ []) (ht2n : ∀ x ∈ t2, isNumC x = true)
    (hw3 : ws3 ≠ []) (hw3w : ∀ x ∈ ws3, isWs x = true)
    (ht3 : t3 ≠ []) (ht3n : ∀ x ∈ t3, isNumC x = true)
    (hw4 : ∀ x ∈ ws4, isWs x = true)
    (hag : ∀ g ∈ ag, AlphaShape g) :
    tryMatch (oklchLit ++ (ws1 ++ (t1 ++ (ws2 ++ (t2 ++ (ws3 ++ (t3 ++
        (ag.getD [] ++ (ws4 ++ (')' :: z)))))))))) =
      some ⟨ws1, t1, ws2, t2, ws3, t3, ag, ws4, z⟩ := by
  rw [tryMatch_lit]
  have hfws : ∀ d, isWs d = true → isNumC d = false := fun _ hd => ws_not_num hd
  have hfal : ∀ d, isWs d = true → isAlTok d = false := fun _ hd => ws_not_al hd
  have hfnum : ∀ d, isNumC d = true → isWs d = false := fun _ hd => num_not_ws hd
  have e8 := takeWhile_append_head (p := isWs) (a := ws4) (b := ')' :: z) hw4
    (fun c hc => by injection hc with hc; subst hc; decide)
  cases ag with
  | none =>
    simp only [Option.getD_none, List.nil_append]
    have e6 := takeWhile_append_head (p := isNumC) (a := t3)
      (b := ws4 ++ (')' :: z)) ht3n
      (head_fail_ws_cons hw4 hfws (by decide))
    have e5 := takeWhile_append_head (p := isWs) (a := ws3)
      (b := t3 ++ (ws4 ++ (')' :: z))) hw3w
      (head_fail_append _ ht3 ht3n hfnum)
    have e4 := takeWhile_append_head (p := isNumC) (a := t2)
      (b := ws3 ++ (t3 ++ (ws4 ++ (')' :: z)))) ht2n
      (head_fail_append _ hw3 hw3w hfws)
    have e3 := takeWhile_append_head (p := isWs) (a := ws2)
      (b := t2 ++ (ws3 ++ (t3 ++ (ws4 ++ (')' :: z))))) hw2w
      (head_fail_append _ ht2 ht2n hfnum)
    have e2 := takeWhile_append_head (p := isNumC) (a := t1)
      (b := ws2 ++ (t2 ++ (ws3 ++ (t3 ++ (ws4 ++ (')' :: z)))))) ht1n
      (head_fail_append _ hw2 hw2w hfws)
    have e1 := takeWhile_append_head (p := isWs) (a := ws1)
      (b := t1 ++ (ws2 ++ (t2 ++ (ws3 ++ (t3 ++ (ws4 ++ (')' :: z))))))) hw1
      (head_fail_append _ ht1 ht1n hfnum)
    have ha : tryAlpha (ws4 ++ (')' :: z)) = none := by
      unfold tryAlpha
      rw [e8.2]
      rfl
    simp only [tryMatchBody, e1.1, e1.2, e2.1, e2.2, e3.1, e3.2, e4.1, e4.2,
      e5.1, e5.2, e6.1, e6.2, ha, e8.1, e8.2]
    rw [if_neg ht1, if_neg hw2, if_neg ht2, if_neg hw3, if_neg ht3]
  | some g =>
    obtain ⟨wa, wb, run, hg, hwa, hwb, hrun, hrunal⟩ := hag g rfl
    simp only [Option.getD_some]
    subst hg
    have hassoc : (wa ++ '/' :: (wb ++ run)) ++ (ws4 ++ (')' :: z))
        = wa ++ ('/' :: (wb ++ (run ++ (ws4 ++ (')' :: z))))) := by
      simp [List.append_assoc]
    rw [hassoc]
    have e6 := takeWhile_append_head (p := isNumC) (a := t3)
      (b := wa ++ ('/' :: (wb ++ (run ++ (ws4 ++ (')' :: z)))))) ht3n
      (head_fail_ws_cons hwa hfws (by decide))
    have e5 := takeWhile_append_head (p := isWs) (a := ws3)
      (b := t3 ++ (wa ++ ('/' :: (wb ++ (run ++ (ws4 ++ (')' :: z))))))) hw3w
      (head_fail_append _ ht3 ht3n hfnum)
    have e4 := takeWhile_append_head (p := isNumC) (a := t2)
      (b := ws3 ++ (t3 ++ (wa ++ ('/' :: (wb ++ (run ++ (ws4 ++ (')' :: z)))))))) ht2n
      (head_fail_append _ hw3 hw3w hfws)
    have e3 := takeWhile_append_head (p := isWs) (a := ws2)
      (b := t2 ++ (ws3 ++ (t3 ++ (wa ++ ('/' :: (wb ++ (run ++ (ws4 ++ (')' :: z))))))))) hw2w
      (head_fail_append _ ht2 ht2n hfnum)
    have e2 := takeWhile_append_head (p := isNumC) (a := t1)
      (b := ws2 ++ (t2 ++ (ws3 ++ (t3 ++ (wa ++ ('/' :: (wb ++ (run ++ (ws4 ++ (')' :: z)))))))))) ht1n
      (head_fail_append _ hw2 hw2w hfws)
    have e1 := takeWhile_append_head (p := isWs) (a := ws1)
      (b := t1 ++ (ws2 ++ (t2 ++ (ws3 ++ (t3 ++ (wa ++ ('/' :: (wb ++ (run ++ (ws4 ++ (')' :: z))))))))))) hw1
      (head_fail_append _ ht1 ht1n hfnum)
    have eA := takeWhile_append_head (p := isWs) (a := wa)
      (b := '/' :: (wb ++ (run ++ (ws4 ++ (')' :: z))))) hwa
      (fun c hc => by injection hc with hc; subst hc; decide)
    have eB := takeWhile_append_head (p := isWs) (a := wb)
      (b := run ++ (ws4 ++ (')' :: z))) hwb
      (head_fail_append _ hrun hrunal (fun _ hd => al_not_ws hd))
    have eC := takeWhile_append_head (p := isAlTok) (a := run)
      (b := ws4 ++ (')' :: z)) hrunal
      (head_fail_ws_cons hw4 hfal (by decide))
    have ha : tryAlpha (wa ++ ('/' :: (wb ++ (run ++ (ws4 ++ (')' :: z))))))
        = some (wa ++ '/' :: (wb ++ run), ws4 ++ (')' :: z)) := by
      unfold tryAlpha
      rw [eA.2]
      simp only [eB.1, eB.2, eC.1, eC.2, eA.1]
      rw [if_neg (by simp [hrun])]
    simp only [tryMatchBody, e1.1, e1.2, e2.1, e2.2, e3.1, e3.2, e4.1, e4.2,
      e5.1, e5.2, e6.1, e6.2, ha, e8.1, e8.2]
    rw [if_neg ht1, if_neg hw2, if_neg ht2, if_neg hw3, if_neg ht3]

theorem MatchData.core_append (m : MatchData) (z : List Char) :
    m.core ++ z = oklchLit ++ (m.ws1 ++ (m.t1 ++ (m.ws2 ++ (m.t2 ++ (m.ws3 ++
      (m.t3 ++ (m.alphaPart ++ (m.ws4 ++ (')' :: z))))))))) := by
  simp [MatchData.core, List.append_assoc]

/-- A well-formed match re-matches in front of any continuation, with the
same groups. -/
theorem tryMatch_core_append {m : MatchData} (hwf : MatchWf m) (z : List Char) :
    tryMatch (m.core ++ z) = some { m with rest := z } := by
  rw [MatchData.core_append]
  have := @tryMatch_build m.ws1 m.t1 m.ws2 m.t2
    m.ws3 m.t3 m.ws4 m.alphaGrp z
    hwf.ws1_ws hwf.t1_ne hwf.t1_num hwf.ws2_ne hwf.ws2_ws hwf.t2_ne hwf.t2_num
    hwf.ws3_ne hwf.ws3_ws hwf.t3_ne hwf.t3_num hwf.ws4_ws hwf.alpha_shape
  rw [MatchData.alphaPart]
  rw [this]

theorem scan_match {s : List Char} {m : MatchData} (pos : ℕ)
    (h : tryMatch s = some m) :
    scan s pos = (pos, m) :: scan m.rest (pos + m.klen) := by
  cases s with
  | nil => exact absurd h (by simp [tryMatch])
  | cons c cs =>
    have hr := tryMatch_rest_lt h
    show scanF (c :: cs).length (c :: cs) pos = _
    simp only [List.length_cons, scanF, h]
    rw [scanF_congr (pos + m.klen) (by simp at hr ⊢; omega) le_rfl]
    rfl

theorem scan_nomatch {c : Char} {s : List Char} (pos : ℕ)
    (h : tryMatch (c :: s) = none) :
    scan (c :: s) pos = scan s (pos + 1) := by
  show scanF (c :: s).length (c :: s) pos = _
  simp only [List.length_cons, scanF, h]
  rfl

/-- Every element of the scan result decomposes the input text around its
matched span. -/
theorem scan_mem_decomp {s : List Char} {pos : ℕ} {pm : ℕ × MatchData}
    (h : pm ∈ scan s pos) :
    ∃ pre, s = pre ++ pm.2.core ++ pm.2.rest ∧ pm.1 = pos + pre.length := by
  induction s, pos using scan_induction with
  | h1 pos => simp [scan, scanF] at h
  | h2 c s pos m hm ih =>
    rw [scan_match pos hm] at h
    rcases List.mem_cons.mp h with h | h
    · subst h
      exact ⟨[], by simpa using tryMatch_sound hm, by simp⟩
    · obtain ⟨pre, hdec, hpos⟩ := ih h
      refine ⟨m.core ++ pre, ?_, ?_⟩
      · rw [tryMatch_sound hm, hdec]
        simp [List.append_assoc]
      · rw [hpos]
        simp [MatchData.klen]
        omega
  | h3 c s pos hm ih =>
    rw [scan_nomatch pos hm] at h
    obtain ⟨pre, hdec, hpos⟩ := ih h
    exact ⟨c :: pre, by simp [hdec], by simp [hpos]; omega⟩

theorem scan_pos_lb {s : List Char} {pos : ℕ} :
    ∀ pm ∈ scan s pos, pos ≤ pm.1 := by
  intro pm h
  obtain ⟨pre, _, hpos⟩ := scan_mem_decomp h
  omega

/-- The matched spans are emitted in order and do not overlap. -/
theorem scan_pairwise (s : List Char) (pos : ℕ) :
    List.Pairwise (fun a b : ℕ × MatchData => a.1 + a.2.klen ≤ b.1)
      (scan s pos) := by
  induction s, pos using scan_induction with
  | h1 pos => simp [scan, scanF]
  | h2 c s pos m hm ih =>
    rw [scan_match pos hm]
    refine List.Pairwise.cons ?_ ih
    intro b hb
    exact scan_pos_lb b hb
  | h3 c s pos hm ih =>
    rw [scan_nomatch pos hm]
    exact ih

theorem scan_wf {s : List Char} {pos : ℕ} {pm : ℕ × MatchData}
    (h : pm ∈ scan s pos) : MatchWf pm.2 := by
  induction s, pos using scan_induction with
  | h1 pos => simp [scan, scanF] at h
  | h2 c s pos m hm ih =>
    rw [scan_match pos hm] at h
    rcases List.mem_cons.mp h with h | h
    · subst h; exact tryMatch_inv hm
    · exact ih h
  | h3 c s pos hm ih =>
    rw [scan_nomatch pos hm] at h
    exact ih h

theorem emitColor_inv {pos : ℕ} {m : MatchData} {pc : ParsedOklch}
    (h : emitColor pos m = some pc) :
    parseFloatPrefix m.t1 = some pc.l ∧ parseFloatPrefix m.t2 = some pc.c ∧
    parseFloatPrefix m.t3 = some pc.h ∧ pc.alphaString = m.alphaGrp ∧
    pc.alpha = m.alphaGrp.bind alphaOfGroup ∧
    pc.start = pos ∧ pc.stop = pos + m.klen := by
  unfold emitColor at h
  split at h
  case _ l c hh hp1 hp2 hp3 =>
    split at h
    case _ g hg =>
      split at h
      case _ a ha =>
        injection h with h
        subst h
        refine ⟨hp1, hp2, hp3, hg.symm, ?_, rfl, rfl⟩
        rw [hg]
        simp [ha]
      · exact absurd h (by simp)
    case _ hg =>
      injection h with h
      subst h
      refine ⟨hp1, hp2, hp3, hg.symm, ?_, rfl, rfl⟩
      rw [hg]
      simp
  case _ hne => exact absurd h (by simp)

theorem parse_mem_iff {t : List Char} {pc : ParsedOklch} :
    pc ∈ parseOklchFunctionsInRange t ↔
      ∃ pm ∈ scan t 0, emitColor pm.1 pm.2 = some pc := by
  unfold parseOklchFunctionsInRange
  simp [List.mem_filterMap]

/-- The text of a parsed color's span. -/
def spanText (t : List Char) (pc : ParsedOklch) : List Char :=
  (t.drop pc.start).take (pc.stop - pc.start)

/-- Modelled from the spec: a decimal numeral in the grammar the spec states -
"digits with an optional single fractional part, no sign, and no exponent". -/
def specDecimal (s : List Char) : Bool :=
  match s.dropWhile Char.isDigit with
  | [] => !s.isEmpty
  | '.' :: r => !(s.takeWhile Char.isDigit).isEmpty && !r.isEmpty && r.all Char.isDigit
  | _ => false

/-- Modelled from the spec: the alpha tail `whitespace* / whitespace*
(decimal | decimal %)` of the stated grammar, checked on a captured group. -/
def specAlphaGrp (g : List Char) : Bool :=
  match g.dropWhile isWs with
  | '/' :: r2 =>
    let run := r2.dropWhile isWs
    specDecimal run ||
      (run.getLast? = some '%' && specDecimal run.dropLast)
  | _ => false

/-- Modelled from the spec: the full stated grammar for one occurrence
(`oklch(` ws* decimal ws+ decimal ws+ decimal [alpha tail] ws* `)`), checked
by running the occurrence regex and then requiring the numeric tokens to be
spec-shaped decimals. -/
def specOccurrenceOK (s : List Char) : Bool :=
  match tryMatch s with
  | some m =>
    m.rest.isEmpty && specDecimal m.t1 && specDecimal m.t2 && specDecimal m.t3 &&
      (match m.alphaGrp with
       | some g => specAlphaGrp g
       | none => true)
  | none => false

/-- **C1, counterexample.**  The text `oklch(1.2.3 0 0)` contains an
occurrence whose first numeric token `1.2.3` has two dots, violating the
stated decimal grammar, yet the scanner emits a `ParsedColor` for it (with
`l = 1.2`, the prefix `parseFloat` accepts). -/
theorem c1_counterexample :
    ∃ pc ∈ parseOklchFunctionsInRange ("oklch(1.2.3 0 0)".toList),
      specOccurrenceOK (spanText ("oklch(1.2.3 0 0)".toList) pc) = false := by
  decide

theorem emitColor_none_of_alpha_fail {pos : ℕ} {m : MatchData} {g : List Char}
    (hg : m.alphaGrp = some g) (ha : alphaOfGroup g = none) :
    emitColor pos m = none := by
  unfold emitColor
  split
  case _ l c hh hp1 hp2 hp3 =>
    rw [hg]
    simp only
    rw [ha]
  · rfl

/-- **C1** (amended).  For every input text the scanner emits one
`ParsedColor` per non-overlapping regex occurrence, in left-to-right source
order, and every emitted span is exactly one complete occurrence of the shape
`oklch(` ws* token ws+ token ws+ token [ws* `/` ws* token] ws* `)` — where the
numeric tokens are nonempty runs of digits and dots (digits, dots and `%` for
the alpha token) whose `parseFloat` prefix parses to the emitted components;
a token may contain more than one dot. -/
theorem c1_amended_ordered_regex_occurrences (t : List Char) :
    List.Pairwise (fun a b : ParsedOklch => a.stop ≤ b.start)
      (parseOklchFunctionsInRange t) ∧
    ∀ pc ∈ parseOklchFunctionsInRange t,
      pc.start < pc.stop ∧ pc.stop ≤ t.length ∧
      ∃ m : MatchData, tryMatch (spanText t pc) = some m ∧ m.rest = [] ∧
        parseFloatPrefix m.t1 = some pc.l ∧ parseFloatPrefix m.t2 = some pc.c ∧
        parseFloatPrefix m.t3 = some pc.h ∧ m.alphaGrp = pc.alphaString := by
  constructor
  · unfold parseOklchFunctionsInRange
    refine List.pairwise_filterMap.mpr ((scan_pairwise t 0).imp ?_)
    intro a b hab x hx y hy
    simp only [Option.mem_def] at hx hy
    obtain ⟨_, _, _, _, _, _, hxstop⟩ := emitColor_inv hx
    obtain ⟨_, _, _, _, _, hystart, _⟩ := emitColor_inv hy
    omega
  · intro pc hpc
    obtain ⟨pm, hscan, hemit⟩ := parse_mem_iff.mp hpc
    obtain ⟨hp1, hp2, hp3, hAs, hA, hstart, hstop⟩ := emitColor_inv hemit
    obtain ⟨pre, hdec, hpos⟩ := scan_mem_decomp hscan
    have hwf := scan_wf hscan
    have hklen := pm.2.klen_pos
    have hspan : spanText t pc = pm.2.core := by
      unfold spanText
      rw [hstart, hstop, hpos]
      simp only [Nat.zero_add, Nat.add_sub_cancel_left]
      rw [hdec, List.append_assoc, List.drop_left, MatchData.klen, List.take_left]
    refine ⟨?_, ?_, { pm.2 with rest := [] }, ?_, rfl, hp1, hp2, hp3, hAs.symm⟩
    · omega
    · rw [hdec, hstop, hpos]
      simp [MatchData.klen]
    · rw [hspan, ← List.append_nil pm.2.core]
      exact tryMatch_core_append hwf []

/-- **C2.**  An occurrence whose alpha segment is present but numerically
unparsable is skipped whole: no emitted record has a present `alphaString`
with an absent numeric alpha, and no emitted record's span covers such an
occurrence. -/
theorem c2_malformed_alpha_rejected (t : List Char) :
    (∀ pc ∈ parseOklchFunctionsInRange t,
      pc.alphaString.isSome → pc.alpha.isSome) ∧
    (∀ pm ∈ scan t 0, ∀ g, pm.2.alphaGrp = some g → alphaOfGroup g = none →
      ∀ pc ∈ parseOklchFunctionsInRange t,
        ¬ (pc.start ≤ pm.1 ∧ pm.1 + pm.2.klen ≤ pc.stop)) := by
  constructor
  · intro pc hpc hs
    obtain ⟨pm, hscan, hemit⟩ := parse_mem_iff.mp hpc
    obtain ⟨_, _, _, hAs, hA, _, _⟩ := emitColor_inv hemit
    rw [hAs] at hs
    cases hg : pm.2.alphaGrp with
    | none => rw [hg] at hs; simp at hs
    | some g =>
      rw [hA, hg]
      cases ha : alphaOfGroup g with
      | none =>
        have := @emitColor_none_of_alpha_fail pm.1 pm.2 g hg ha
        rw [this] at hemit
        exact absurd hemit (by simp)
      | some a => simp [ha]
  · intro pm hpm g hg ha pc hpc hcover
    obtain ⟨pm', hscan', hemit'⟩ := parse_mem_iff.mp hpc
    obtain ⟨_, _, _, _, _, hstart, hstop⟩ := emitColor_inv hemit'
    have hklen := pm.2.klen_pos
    have hklen' := pm'.2.klen_pos
    by_cases heq : pm' = pm
    · subst heq
      rw [emitColor_none_of_alpha_fail hg ha] at hemit'
      exact absurd hemit' (by simp)
    · have hpw2 : List.Pairwise
          (fun a b : ℕ × MatchData => a.1 + a.2.klen ≤ b.1 ∨ b.1 + b.2.klen ≤ a.1)
          (scan t 0) := (scan_pairwise t 0).imp (fun h => Or.inl h)
      have hsym := hpw2.forall (by intro a b hr; exact Or.symm hr)
      rcases hsym hscan' hpm heq with hlt | hlt <;> omega

/-- **C9, counterexample.**  `oklch(0 0 0 / 2)` is scanned and emits
`alpha = 2`, outside `[0,1]`: bare decimal alphas are stored as-is with no
clamping. -/
theorem c9_counterexample :
    ∃ pc ∈ parseOklchFunctionsInRange ("oklch(0 0 0 / 2)".toList),
      ∃ a : ℚ, pc.alpha = some a ∧ 1 < a := by
  decide

theorem mkRat_cast_eq (n : ℤ) (d : ℕ) : mkRat n d = (n : ℚ) / (d : ℚ) := by
  rw [Rat.mkRat_eq_divInt, Rat.divInt_eq_div]
  push_cast
  rfl

theorem fracValQ_eq (l : List Char) :
    fracValQ l = (valDigits l : ℚ) / 10 ^ l.length := by
  rw [fracValQ, mkRat_cast_eq]
  push_cast
  rfl

theorem intFracQ_eq (ip fp : List Char) :
    intFracQ ip fp = (valDigits ip : ℚ) + fracValQ fp := by
  rw [intFracQ, fracValQ, mkRat_cast_eq, mkRat_cast_eq]
  have h10 : ((10 : ℚ) ^ fp.length) ≠ 0 := by positivity
  push_cast
  field_simp

theorem divQ100_eq (q : ℚ) : divQ100 q = q / 100 := by
  rw [divQ100, mkRat_cast_eq]
  have hden : ((q.den : ℚ)) ≠ 0 := by
    exact_mod_cast q.den_nz
  conv_rhs => rw [← Rat.num_div_den q]
  push_cast
  field_simp

theorem qsub_eq (a b : ℚ) : qsub a b = a - b := by
  rw [qsub, mkRat_cast_eq]
  have ha : ((a.den : ℚ)) ≠ 0 := by exact_mod_cast a.den_nz
  have hb : ((b.den : ℚ)) ≠ 0 := by exact_mod_cast b.den_nz
  conv_rhs => rw [← Rat.num_div_den a, ← Rat.num_div_den b]
  push_cast
  field_simp
  ring

theorem approxEqual_iff {a b eps : ℚ} :
    approxEqual a b eps = true ↔ |a - b| < eps := by
  simp [approxEqual, qsub_eq]

theorem mkRat_one_thousandth : (mkRat 1 1000 : ℚ) = 1 / 1000 := by
  rw [mkRat_cast_eq]
  norm_num

theorem mkRat_one_ten_thousandth : (mkRat 1 10000 : ℚ) = 1 / 10000 := by
  rw [mkRat_cast_eq]
  norm_num

theorem jsRound100_eq (q : ℚ) : jsRound100 q = ⌊q * 100 + 1 / 2⌋ := by
  have hden : ((q.den : ℚ)) ≠ 0 := by exact_mod_cast q.den_nz
  have hkey : q * 100 + 1 / 2 =
      ((200 * q.num + (q.den : ℤ) : ℤ) : ℚ) / ((2 * q.den : ℕ) : ℚ) := by
    conv_lhs => rw [← Rat.num_div_den q]
    push_cast
    field_simp
    ring
  rw [jsRound100, ← Rat.floor_intCast_div_natCast (200 * q.num + q.den) (2 * q.den), ← hkey]

theorem decVal_eq (n k : ℕ) : decVal n k = (n : ℚ) / 10 ^ k := by
  rw [decVal, mkRat_cast_eq]
  push_cast
  rfl

theorem parseFloatPrefix_nonneg {s : List Char} {q : ℚ}
    (h : parseFloatPrefix s = some q) : 0 ≤ q := by
  have hfrac : ∀ l : List Char, (0 : ℚ) ≤ fracValQ l := by
    intro l
    rw [fracValQ_eq]
    positivity
  unfold parseFloatPrefix at h
  split at h
  · split at h
    case _ r =>
      split at h
      · exact absurd h (by simp)
      · injection h with h
        subst h
        exact hfrac _
    · exact absurd h (by simp)
  · split at h
    case _ r hr =>
      injection h with h
      subst h
      rw [intFracQ_eq]
      have h1 := hfrac (r.takeWhile Char.isDigit)
      have h2 : (0 : ℚ) ≤ (valDigits (s.takeWhile Char.isDigit) : ℚ) := by positivity
      linarith
    · injection h with h
      subst h
      positivity

theorem alphaOfGroup_nonneg {g : List Char} {a : ℚ}
    (h : alphaOfGroup g = some a) : 0 ≤ a := by
  unfold alphaOfGroup at h
  split at h
  next => exact absurd h (by simp)
  next run hrun =>
    split at h
    next =>
      cases hp : parseFloatPrefix run.dropLast with
      | none => rw [hp] at h; exact absurd h (by simp)
      | some q =>
        rw [hp] at h
        injection h with h
        subst h
        show (0 : ℚ) ≤ divQ100 q
        rw [divQ100_eq]
        have := parseFloatPrefix_nonneg hp
        positivity
    next => exact parseFloatPrefix_nonneg h

/-- **C9** (amended).  An emitted alpha is derived from the raw alpha text by
the percentage/bare rule and is always nonnegative, but it is not clamped to
`[0,1]`: values above 1 are stored as-is. -/
theorem c9_amended_alpha_nonneg (t : List Char) :
    ∀ pc ∈ parseOklchFunctionsInRange t,
      pc.alpha = pc.alphaString.bind alphaOfGroup ∧
      ∀ a, pc.alpha = some a → 0 ≤ a := by
  intro pc hpc
  obtain ⟨pm, hscan, hemit⟩ := parse_mem_iff.mp hpc
  obtain ⟨_, _, _, hAs, hA, _, _⟩ := emitColor_inv hemit
  refine ⟨by rw [hA, hAs], ?_⟩
  intro a ha
  rw [hA] at ha
  cases hg : pm.2.alphaGrp with
  | none => rw [hg] at ha; simp at ha
  | some g =>
    rw [hg] at ha
    exact alphaOfGroup_nonneg ha

/-- Witness for C9 (amended) at `oklch(0 0 0 / 50%)`. -/
theorem c9_amended_witness :
    ∃ pc ∈ parseOklchFunctionsInRange ("oklch(0 0 0 / 50%)".toList),
      pc.alpha = pc.alphaString.bind alphaOfGroup ∧
      ∀ a, pc.alpha = some a → 0 ≤ a := by
  refine ⟨⟨0, 0, 0, some (mkRat 1 2), some (" / 50%".toList), 0, 18⟩, by decide, ?_⟩
  exact c9_amended_alpha_nonneg ("oklch(0 0 0 / 50%)".toList) _ (by decide)

/-- **C3.**  `findColorName` is the first-match linear scan the spec states:
it returns the name of the first table entry within `1e-4` of the query in
all three components, and `none` exactly when no entry is. -/
theorem c3_findColorName_first_within_eps (l c h : ℚ) (tbl : List ColorMapEntry) :
    findColorName l c h tbl =
      (tbl.find? (fun e =>
        approxEqual e.l l && approxEqual e.c c && approxEqual e.h h)).map (·.name) ∧
    (findColorName l c h tbl = none ↔ ∀ e ∈ tbl,
      ¬ (|e.l - l| < 1 / 10000 ∧ |e.c - c| < 1 / 10000 ∧ |e.h - h| < 1 / 10000)) := by
  have key : findColorName l c h tbl =
      (tbl.find? (fun e =>
        approxEqual e.l l && approxEqual e.c c && approxEqual e.h h)).map (·.name) := by
    induction tbl with
    | nil => rfl
    | cons e es ih =>
      rw [findColorName, List.find?_cons]
      by_cases he : (approxEqual e.l l && approxEqual e.c c && approxEqual e.h h) = true
      · rw [if_pos he, he]
        rfl
      · rw [if_neg he, ih]
        cases hb : (approxEqual e.l l && approxEqual e.c c && approxEqual e.h h) with
        | true => exact absurd hb he
        | false => rfl
  refine ⟨key, ?_⟩
  rw [key]
  rw [Option.map_eq_none', List.find?_eq_none]
  have hiff : ∀ x y : ℚ, approxEqual x y = true ↔ |x - y| < 1 / 10000 := by
    intro x y
    rw [approxEqual_iff, mkRat_one_ten_thousandth]
  constructor
  · intro hall e he
    have := hall e he
    simp only [Bool.and_eq_true, hiff] at this
    tauto
  · intro hall e he
    have := hall e he
    simp only [Bool.and_eq_true, hiff]
    tauto

/-- **C6.**  The comment text Annotate builds is ` /* {label} */` with
`label` the resolved name or `Custom`, and the ` / {round(alpha*100)}%`
suffix appears exactly when alpha is present and at least `1e-3` away
from 1; an alpha approximately 1 (such as one written `100%`) produces the
same comment as no alpha at all. -/
theorem c6_comment_text_shape (tbl : List ColorMapEntry) (l c h : ℚ) :
    commentTextFor tbl l c h none =
      [' ', '/', '*', ' '] ++ ((findColorName l c h tbl).getD customLabel) ++
        [' ', '*', '/'] ∧
    (∀ a : ℚ, |a - 1| < 1 / 1000 →
      commentTextFor tbl l c h (some a) = commentTextFor tbl l c h none) ∧
    (∀ a : ℚ, 1 / 1000 ≤ |a - 1| →
      commentTextFor tbl l c h (some a) =
        [' ', '/', '*', ' '] ++ ((findColorName l c h tbl).getD customLabel) ++
          [' ', '/', ' '] ++ intChars ⌊a * 100 + 1 / 2⌋ ++ ['%'] ++
          [' ', '*', '/']) := by
  refine ⟨rfl, ?_, ?_⟩
  · intro a ha
    have hb : approxEqual a 1 (mkRat 1 1000) = true := by
      rw [approxEqual_iff, mkRat_one_thousandth]
      exact ha
    unfold commentTextFor baseCommentText
    simp [hb]
  · intro a ha
    have hb : approxEqual a 1 (mkRat 1 1000) = false := by
      rw [← Bool.not_eq_true, approxEqual_iff, mkRat_one_thousandth]
      intro hcon
      linarith
    unfold commentTextFor baseCommentText
    simp [hb, jsRound100_eq, List.append_assoc]

theorem digitVal_ofNat {d : ℕ} (hd : d < 10) :
    digitVal (Char.ofNat (48 + d)) = d := by
  interval_cases d <;> decide

theorem isDigit_ofNat {d : ℕ} (hd : d < 10) :
    (Char.ofNat (48 + d)).isDigit = true := by
  interval_cases d <;> decide

theorem valDigits_append_one (a : List Char) (c : Char) :
    valDigits (a ++ [c]) = 10 * valDigits a + digitVal c := by
  unfold valDigits
  rw [List.foldl_append]
  rfl

theorem natDigitsF_spec : ∀ f n, n < f →
    valDigits (natDigitsF f n) = n ∧ natDigitsF f n ≠ [] ∧
    ∀ x ∈ natDigitsF f n, x.isDigit = true := by
  intro f
  induction f with
  | zero => intro n hn; omega
  | succ f ih =>
    intro n hn
    by_cases h10 : n < 10
    · rw [natDigitsF, if_pos h10]
      refine ⟨?_, by simp, ?_⟩
      · show 10 * 0 + digitVal (Char.ofNat (48 + n)) = n
        rw [digitVal_ofNat h10]
        omega
      · intro x hx
        rw [List.mem_singleton] at hx
        subst hx
        exact isDigit_ofNat h10
    · rw [natDigitsF, if_neg h10]
      have hdiv : n / 10 < f := by
        have := Nat.div_lt_self (by omega : 0 < n) (by omega : 1 < 10)
        omega
      obtain ⟨hv, hne, hds⟩ := ih (n / 10) hdiv
      refine ⟨?_, by simp, ?_⟩
      · rw [valDigits_append_one, hv, digitVal_ofNat (Nat.mod_lt _ (by omega))]
        omega
      · intro x hx
        rw [List.mem_append] at hx
        rcases hx with hx | hx
        · exact hds x hx
        · rw [List.mem_singleton] at hx
          subst hx
          exact isDigit_ofNat (Nat.mod_lt _ (by omega))

theorem natDigits_val (n : ℕ) : valDigits (natDigits n) = n :=
  (natDigitsF_spec (n + 1) n (by omega)).1

theorem natDigits_ne_nil (n : ℕ) : natDigits n ≠ [] :=
  (natDigitsF_spec (n + 1) n (by omega)).2.1

theorem natDigits_all_digit (n : ℕ) : ∀ x ∈ natDigits n, x.isDigit = true :=
  (natDigitsF_spec (n + 1) n (by omega)).2.2

theorem natDigitsF_len : ∀ f n k, n < f → 0 < k → n < 10 ^ k →
    (natDigitsF f n).length ≤ k := by
  intro f
  induction f with
  | zero => intro n k hn; omega
  | succ f ih =>
    intro n k hn hk hnk
    by_cases h10 : n < 10
    · rw [natDigitsF, if_pos h10]
      simpa using hk
    · rw [natDigitsF, if_neg h10]
      have hk2 : 2 ≤ k := by
        by_contra hcon
        have hk1 : k = 1 := by omega
        rw [hk1] at hnk
        simp at hnk
        omega
      have hdiv : n / 10 < f := by
        have := Nat.div_lt_self (by omega : 0 < n) (by omega : 1 < 10)
        omega
      have hdivk : n / 10 < 10 ^ (k - 1) := by
        rw [Nat.div_lt_iff_lt_mul (by omega : 0 < 10)]
        have : 10 ^ (k - 1) * 10 = 10 ^ k := by
          rw [← pow_succ]
          congr 1
          omega
        omega
      have := ih (n / 10) (k - 1) hdiv (by omega) hdivk
      rw [List.length_append, List.length_singleton]
      omega

theorem natDigits_len {n k : ℕ} (hk : 0 < k) (hn : n < 10 ^ k) :
    (natDigits n).length ≤ k :=
  natDigitsF_len (n + 1) n k (by omega) hk hn

theorem valDigits_replicate_zero (j : ℕ) (ds : List Char) :
    valDigits (List.replicate j '0' ++ ds) = valDigits ds := by
  induction j with
  | zero => rfl
  | succ j ih =>
    rw [List.replicate_succ, List.cons_append]
    show valDigits (List.replicate j '0' ++ ds) = _
    exact ih

theorem padZeros_spec {k : ℕ} {ds : List Char} (hlen : ds.length ≤ k)
    (hds : ∀ x ∈ ds, x.isDigit = true) :
    (padZeros k ds).length = k ∧ valDigits (padZeros k ds) = valDigits ds ∧
    ∀ x ∈ padZeros k ds, x.isDigit = true := by
  refine ⟨?_, valDigits_replicate_zero _ _, ?_⟩
  · rw [padZeros, List.length_append, List.length_replicate]
    omega
  · intro x hx
    rw [padZeros, List.mem_append] at hx
    rcases hx with hx | hx
    · rw [List.eq_of_mem_replicate hx]
      decide
    · exact hds x hx

theorem takeWhile_eq_self_of_all {p : α → Bool} {l : List α}
    (h : ∀ x ∈ l, p x = true) : l.takeWhile p = l := by
  induction l with
  | nil => rfl
  | cons x t ih =>
    rw [List.takeWhile_cons, h x (by simp), if_pos rfl]
    rw [ih (fun y hy => h y (by simp [hy]))]

theorem dropWhile_eq_nil_of_all {p : α → Bool} {l : List α}
    (h : ∀ x ∈ l, p x = true) : l.dropWhile p = [] := by
  induction l with
  | nil => rfl
  | cons x t ih =>
    rw [List.dropWhile_cons, h x (by simp), if_pos rfl]
    exact ih (fun y hy => h y (by simp [hy]))

/-- `serializeDec` renders a plain decimal numeral: nonempty, drawn from
`[\d.]`, and `parseFloat` reads back exactly the value `n / 10^k`. -/
theorem serializeDec_spec (n k : ℕ) :
    serializeDec n k ≠ [] ∧ (∀ x ∈ serializeDec n k, isNumC x = true) ∧
    parseFloatPrefix (serializeDec n k) = some (decVal n k) := by
  by_cases hk : k = 0
  · subst hk
    rw [serializeDec, if_pos rfl]
    have hv := natDigits_val n
    have hne := natDigits_ne_nil n
    have hds := natDigits_all_digit n
    refine ⟨hne, fun x hx => by rw [isNumC, hds x hx]; rfl, ?_⟩
    unfold parseFloatPrefix
    rw [takeWhile_eq_self_of_all hds, dropWhile_eq_nil_of_all hds]
    rw [if_neg (by simpa using hne)]
    show some ((valDigits (natDigits n) : ℚ)) = some (decVal n 0)
    rw [hv, decVal, pow_zero, Rat.mkRat_one]
    norm_cast
  · rw [serializeDec, if_neg hk]
    have hmod : n % 10 ^ k < 10 ^ k := Nat.mod_lt _ (by positivity)
    have hflen := natDigits_len (by omega : 0 < k) hmod
    obtain ⟨hplen, hpval, hpds⟩ := padZeros_spec hflen (natDigits_all_digit _)
    have hine := natDigits_ne_nil (n / 10 ^ k)
    have hids := natDigits_all_digit (n / 10 ^ k)
    have e1 := takeWhile_append_head (p := Char.isDigit)
      (a := natDigits (n / 10 ^ k)) (b := '.' :: padZeros k (natDigits (n % 10 ^ k)))
      hids (fun c hc => by injection hc with hc; subst hc; rfl)
    refine ⟨by simp [hine], ?_, ?_⟩
    · intro x hx
      rw [List.mem_append] at hx
      rcases hx with hx | hx
      · rw [isNumC, hids x hx]; rfl
      · rw [List.mem_cons] at hx
        rcases hx with hx | hx
        · subst hx; rfl
        · rw [isNumC, hpds x hx]; rfl
    · unfold parseFloatPrefix
      rw [e1.1, e1.2]
      rw [if_neg (by simpa using hine)]
      show some (intFracQ (natDigits (n / 10 ^ k))
        ((padZeros k (natDigits (n % 10 ^ k))).takeWhile Char.isDigit)) =
        some (decVal n k)
      rw [takeWhile_eq_self_of_all hpds]
      unfold intFracQ decVal
      rw [hplen, hpval, natDigits_val, natDigits_val]
      congr 2
      exact_mod_cast Nat.div_add_mod' n (10 ^ k)

/-- Scanning a single well-formed serialized occurrence yields exactly one
record with the expected components. -/
theorem parse_single_build (d1 d2 d3 : List Char) (ag : Option (List Char))
    {q1 q2 q3 : ℚ}
    (h1 : d1 ≠ []) (h1n : ∀ x ∈ d1, isNumC x = true)
    (h2 : d2 ≠ []) (h2n : ∀ x ∈ d2, isNumC x = true)
    (h3 : d3 ≠ []) (h3n : ∀ x ∈ d3, isNumC x = true)
    (hag : ∀ g ∈ ag, AlphaShape g)
    (hp1 : parseFloatPrefix d1 = some q1)
    (hp2 : parseFloatPrefix d2 = some q2)
    (hp3 : parseFloatPrefix d3 = some q3)
    (halpha : ∀ g ∈ ag, (alphaOfGroup g).isSome = true) :
    ∃ stop : ℕ,
      parseOklchFunctionsInRange
        (oklchLit ++ d1 ++ ' ' :: d2 ++ ' ' :: d3 ++ ag.getD [] ++ [')']) =
      [⟨q1, q2, q3, ag.bind alphaOfGroup, ag, 0, stop⟩] := by
  have hS : oklchLit ++ d1 ++ ' ' :: d2 ++ ' ' :: d3 ++ ag.getD [] ++ [')'] =
      oklchLit ++ ([] ++ (d1 ++ ([' '] ++ (d2 ++ ([' '] ++ (d3 ++
        (ag.getD [] ++ ([] ++ (')' :: ([] : List Char)))))))))) := by
    simp [List.append_assoc]
  have hm := @tryMatch_build [] d1 [' '] d2
    [' '] d3 [] ag []
    (by simp) h1 h1n (by simp) (by intro x hx; rw [List.mem_singleton] at hx; subst hx; rfl)
    h2 h2n (by simp) (by intro x hx; rw [List.mem_singleton] at hx; subst hx; rfl)
    h3 h3n (by simp) hag
  refine ⟨(MatchData.mk [] d1 [' '] d2 [' '] d3 ag [] []).klen, ?_⟩
  have hemit : emitColor 0 (MatchData.mk [] d1 [' '] d2 [' '] d3 ag [] []) =
      some ⟨q1, q2, q3, ag.bind alphaOfGroup, ag, 0,
        (MatchData.mk [] d1 [' '] d2 [' '] d3 ag [] []).klen⟩ := by
    unfold emitColor
    rw [show (MatchData.mk [] d1 [' '] d2 [' '] d3 ag [] []).t1 = d1 from rfl,
      show (MatchData.mk [] d1 [' '] d2 [' '] d3 ag [] []).t2 = d2 from rfl,
      show (MatchData.mk [] d1 [' '] d2 [' '] d3 ag [] []).t3 = d3 from rfl,
      show (MatchData.mk [] d1 [' '] d2 [' '] d3 ag [] []).alphaGrp = ag from rfl,
      hp1, hp2, hp3]
    cases ag with
    | none => simp
    | some g =>
      obtain ⟨a, ha⟩ := Option.isSome_iff_exists.mp (halpha g rfl)
      simp [ha]
  unfold parseOklchFunctionsInRange
  rw [hS, scan_match 0 hm]
  rw [show scan (MatchData.mk [] d1 [' '] d2 [' '] d3 ag [] []).rest
    (0 + (MatchData.mk [] d1 [' '] d2 [' '] d3 ag [] []).klen) = ([] : List (ℕ × MatchData)) from rfl]
  rw [List.filterMap_cons, List.filterMap_nil]
  rw [show emitColor
    (0, MatchData.mk [] d1 [' '] d2 [' '] d3 ag [] []).1
    (0, MatchData.mk [] d1 [' '] d2 [' '] d3 ag [] []).2 =
    emitColor 0 (MatchData.mk [] d1 [' '] d2 [' '] d3 ag [] []) from rfl]
  rw [hemit]

/-- **C4.**  Re-serializing an emitted record's components as
`oklch(l c h alphaRawText)` (each numeral written as a plain decimal of the
same value, the alpha text verbatim) and re-scanning yields exactly one
record whose `l`, `c`, `h`, `alpha` and `alphaString` equal the original's. -/
theorem c4_reserialize_rescan (t : List Char) (pc : ParsedOklch)
    (hpc : pc ∈ parseOklchFunctionsInRange t)
    (n1 k1 n2 k2 n3 k3 : ℕ)
    (h1 : pc.l = decVal n1 k1) (h2 : pc.c = decVal n2 k2)
    (h3 : pc.h = decVal n3 k3) :
    ∃ pc' : ParsedOklch,
      parseOklchFunctionsInRange
        (oklchLit ++ serializeDec n1 k1 ++ ' ' :: serializeDec n2 k2 ++
          ' ' :: serializeDec n3 k3 ++ pc.alphaString.getD [] ++ [')']) = [pc'] ∧
      pc'.l = pc.l ∧ pc'.c = pc.c ∧ pc'.h = pc.h ∧
      pc'.alphaString = pc.alphaString ∧ pc'.alpha = pc.alpha := by
  obtain ⟨pm, hscan, hemit⟩ := parse_mem_iff.mp hpc
  obtain ⟨hp1, hp2, hp3, hAs, hA, hstart, hstop⟩ := emitColor_inv hemit
  have hwf := scan_wf hscan
  obtain ⟨s1ne, s1n, s1p⟩ := serializeDec_spec n1 k1
  obtain ⟨s2ne, s2n, s2p⟩ := serializeDec_spec n2 k2
  obtain ⟨s3ne, s3n, s3p⟩ := serializeDec_spec n3 k3
  have hshape : ∀ g ∈ pc.alphaString, AlphaShape g := by
    intro g hg
    rw [hAs] at hg
    exact hwf.alpha_shape g hg
  have halpha : ∀ g ∈ pc.alphaString, (alphaOfGroup g).isSome = true := by
    intro g hg
    rw [hAs] at hg
    cases ha : alphaOfGroup g with
    | some a => rfl
    | none =>
      rw [emitColor_none_of_alpha_fail hg ha] at hemit
      exact absurd hemit (by simp)
  obtain ⟨stop, hparse⟩ := parse_single_build (serializeDec n1 k1)
    (serializeDec n2 k2) (serializeDec n3 k3) pc.alphaString
    s1ne s1n s2ne s2n s3ne s3n hshape
    (by rw [s1p, ← h1]) (by rw [s2p, ← h2]) (by rw [s3p, ← h3]) halpha
  refine ⟨_, hparse, rfl, rfl, rfl, rfl, ?_⟩
  show pc.alphaString.bind alphaOfGroup = pc.alpha
  rw [hA, hAs]

/-- Witness for C4 at `oklch(0.5 0.25 200 / 50%)`. -/
theorem c4_reserialize_rescan_witness :
    ∃ pc' : ParsedOklch,
      parseOklchFunctionsInRange
        (oklchLit ++ serializeDec 5 1 ++ ' ' :: serializeDec 25 2 ++
          ' ' :: serializeDec 200 0 ++
          (⟨mkRat 1 2, mkRat 1 4, 200, some (mkRat 1 2), some (" / 50%".toList),
            0, 25⟩ : ParsedOklch).alphaString.getD [] ++ [')']) = [pc'] ∧
      pc'.l = (⟨mkRat 1 2, mkRat 1 4, 200, some (mkRat 1 2),
        some (" / 50%".toList), 0, 25⟩ : ParsedOklch).l ∧
      pc'.c = (⟨mkRat 1 2, mkRat 1 4, 200, some (mkRat 1 2),
        some (" / 50%".toList), 0, 25⟩ : ParsedOklch).c ∧
      pc'.h = (⟨mkRat 1 2, mkRat 1 4, 200, some (mkRat 1 2),
        some (" / 50%".toList), 0, 25⟩ : ParsedOklch).h ∧
      pc'.alphaString = (⟨mkRat 1 2, mkRat 1 4, 200, some (mkRat 1 2),
        some (" / 50%".toList), 0, 25⟩ : ParsedOklch).alphaString ∧
      pc'.alpha = (⟨mkRat 1 2, mkRat 1 4, 200, some (mkRat 1 2),
        some (" / 50%".toList), 0, 25⟩ : ParsedOklch).alpha :=
  c4_reserialize_rescan ("oklch(0.5 0.25 200 / 50%)".toList)
    ⟨mkRat 1 2, mkRat 1 4, 200, some (mkRat 1 2), some (" / 50%".toList), 0, 25⟩
    (by decide) 5 1 25 2 200 0 (by decide) (by decide) (by decide)

/-- **C5.**  The replacement string is `oklch(` + the entry's three numerals
+ the original alpha raw text verbatim + `)`; the chosen entry contributes no
alpha of its own, and re-scanning the replacement yields one record whose
components are the entry's and whose `alphaString` is exactly the original
raw text (never reformatted). -/
theorem c5_replacement_alpha_verbatim (p : PaletteDec)
    (alphaStr : Option (List Char))
    (hshape : ∀ g ∈ alphaStr, AlphaShape g)
    (halpha : ∀ g ∈ alphaStr, (alphaOfGroup g).isSome = true) :
    selectReplacement p alphaStr =
      oklchLit ++ serializeDec p.ln p.lk ++ ' ' :: serializeDec p.cn p.ck ++
        ' ' :: serializeDec p.hn p.hk ++ (alphaStr.getD []) ++ [')'] ∧
    ∃ pc' : ParsedOklch,
      parseOklchFunctionsInRange (selectReplacement p alphaStr) = [pc'] ∧
      pc'.l = p.entry.l ∧ pc'.c = p.entry.c ∧ pc'.h = p.entry.h ∧
      pc'.alphaString = alphaStr := by
  have hsel : selectReplacement p alphaStr =
      oklchLit ++ serializeDec p.ln p.lk ++ ' ' :: serializeDec p.cn p.ck ++
        ' ' :: serializeDec p.hn p.hk ++ (alphaStr.getD []) ++ [')'] := by
    cases alphaStr <;> rfl
  obtain ⟨s1ne, s1n, s1p⟩ := serializeDec_spec p.ln p.lk
  obtain ⟨s2ne, s2n, s2p⟩ := serializeDec_spec p.cn p.ck
  obtain ⟨s3ne, s3n, s3p⟩ := serializeDec_spec p.hn p.hk
  obtain ⟨stop, hparse⟩ := parse_single_build (serializeDec p.ln p.lk)
    (serializeDec p.cn p.ck) (serializeDec p.hn p.hk) alphaStr
    s1ne s1n s2ne s2n s3ne s3n hshape s1p s2p s3p halpha
  rw [hsel]
  exact ⟨rfl, _, hparse, rfl, rfl, rfl, rfl⟩

theorem alphaShape_half_pct : AlphaShape (" / 50%".toList) :=
  ⟨[' '], [' '], ['5', '0', '%'], by decide, by decide, by decide, by decide,
    by decide⟩

/-- Witness for C5: any palette entry with original alpha text ` / 50%`. -/
theorem c5_replacement_alpha_verbatim_witness :
    selectReplacement ⟨"sky-500".toList, 685, 3, 169, 3, 237323, 3⟩
        (some (" / 50%".toList)) =
      oklchLit ++ serializeDec 685 3 ++ ' ' :: serializeDec 169 3 ++
        ' ' :: serializeDec 237323 3 ++ (" / 50%".toList) ++ [')'] ∧
    ∃ pc' : ParsedOklch,
      parseOklchFunctionsInRange
        (selectReplacement ⟨"sky-500".toList, 685, 3, 169, 3, 237323, 3⟩
          (some (" / 50%".toList))) = [pc'] ∧
      pc'.l = (PaletteDec.entry ⟨"sky-500".toList, 685, 3, 169, 3, 237323, 3⟩).l ∧
      pc'.c = (PaletteDec.entry ⟨"sky-500".toList, 685, 3, 169, 3, 237323, 3⟩).c ∧
      pc'.h = (PaletteDec.entry ⟨"sky-500".toList, 685, 3, 169, 3, 237323, 3⟩).h ∧
      pc'.alphaString = some (" / 50%".toList) :=
  c5_replacement_alpha_verbatim ⟨"sky-500".toList, 685, 3, 169, 3, 237323, 3⟩
    (some (" / 50%".toList))
    (by
      intro g hg
      rw [Option.mem_def] at hg
      injection hg with hg
      subst hg
      exact alphaShape_half_pct)
    (by
      intro g hg
      rw [Option.mem_def] at hg
      injection hg with hg
      subst hg
      decide)

/-- Witness for C6 at a one-entry palette, alpha `1` (suffix suppressed) and
alpha `1/2` (suffix ` / 50%`). -/
theorem c6_comment_text_witness :
    commentTextFor [⟨"x".toList, 1, 2, 3⟩] 1 2 3 (some 1) =
      commentTextFor [⟨"x".toList, 1, 2, 3⟩] 1 2 3 none ∧
    commentTextFor [⟨"x".toList, 1, 2, 3⟩] 1 2 3 (some (1/2)) =
      [' ', '/', '*', ' '] ++
        ((findColorName 1 2 3 [⟨"x".toList, 1, 2, 3⟩]).getD customLabel) ++
        [' ', '/', ' '] ++ intChars ⌊(1/2 : ℚ) * 100 + 1 / 2⌋ ++ ['%'] ++
        [' ', '*', '/'] :=
  ⟨(c6_comment_text_shape [⟨"x".toList, 1, 2, 3⟩] 1 2 3).2.1 1 (by norm_num),
   (c6_comment_text_shape [⟨"x".toList, 1, 2, 3⟩] 1 2 3).2.2 (1/2)
     (by rw [abs_of_nonpos (by norm_num)]; norm_num)⟩

theorem splitCommentClose_sound : ∀ {r : List Char} {p : List Char × List Char},
    splitCommentClose r = some p → r = p.1 ++ '*' :: '/' :: p.2 := by
  intro r
  induction r with
  | nil => intro p h; simp [splitCommentClose] at h
  | cons c t ih =>
    intro p h
    rw [splitCommentClose.eq_def] at h
    split at h
    · rename_i u heq
      injection h with h
      subst h
      rw [heq]
      rfl
    · rename_i hnc heq
      injection heq with hc ht
      subst hc
      subst ht
      rw [Option.map_eq_some'] at h
      obtain ⟨q, hq, hpq⟩ := h
      have hr := ih hq
      subst hpq
      simp [hr]
    · exact absurd h (by simp)

theorem commentAfter_inv {ta w ex : List Char}
    (h : commentAfter ta = some (w, ex)) :
    w = ta.takeWhile isWs ∧ (∀ x ∈ w, isWs x = true) ∧
      ∃ inner rest2, ex = '/' :: '*' :: (inner ++ ['*', '/']) ∧
        ta = w ++ (ex ++ rest2) := by
  unfold commentAfter at h
  split at h
  case _ r hd =>
    split at h
    case _ inner after hs =>
      injection h with h
      rw [Prod.mk.injEq] at h
      obtain ⟨hw, hex⟩ := h
      have hr := splitCommentClose_sound hs
      refine ⟨hw.symm, ?_, inner, after, hex.symm, ?_⟩
      · intro x hx
        rw [← hw] at hx
        exact mem_takeWhile_true hx
      · have hfull := List.takeWhile_append_dropWhile (p := isWs) (l := ta)
        rw [← hfull, hw, hd, hr, ← hex]
        simp
    · exact absurd h (by simp)
  · exact absurd h (by simp)

theorem slash_beq_ws {x : Char} (hx : isWs x = true) :
    (('/' : Char) == x) = false := by
  simp only [isWs, Bool.or_eq_true, decide_eq_true_eq] at hx
  rcases hx with ((((((h | h) | h) | h) | h) | h) | h) <;> subst h <;> decide

theorem isPrefixOf_append_self (a b : List Char) :
    a.isPrefixOf (a ++ b) = true := by
  rw [List.isPrefixOf_iff_prefix]
  exact List.prefix_append a b

theorem indexOfList_ws_head {e' r : List Char} : ∀ {w : List Char},
    (∀ x ∈ w, isWs x = true) →
    indexOfList ('/' :: e') (w ++ '/' :: (e' ++ r)) = w.length := by
  intro w
  induction w with
  | nil =>
    intro _
    have hpre : ('/' :: e').isPrefixOf ('/' :: (e' ++ r)) = true :=
      isPrefixOf_append_self ('/' :: e') r
    simp [indexOfList, hpre]
  | cons x t ih =>
    intro hw
    have hx : isWs x = true := hw x (by simp)
    have hpre : ('/' :: e').isPrefixOf (x :: (t ++ '/' :: (e' ++ r))) = false := by
      simp [List.isPrefixOf, slash_beq_ws hx]
    rw [List.cons_append, indexOfList, if_neg (by simp [hpre])]
    rw [ih (fun y hy => hw y (by simp [hy]))]
    simp [Nat.add_comm]

theorem jsTrim_comment_shape (base : List Char) :
    jsTrim ([' ', '/', '*', ' '] ++ base ++ [' ', '*', '/']) =
      ['/', '*', ' '] ++ base ++ [' ', '*', '/'] := by
  have hsp : isWs ' ' = true := by decide
  have hsl : isWs '/' = false := by decide
  unfold jsTrim
  have h1 : ([' ', '/', '*', ' '] ++ base ++ [' ', '*', '/'] : List Char).dropWhile isWs
      = '/' :: '*' :: ' ' :: (base ++ [' ', '*', '/']) := by
    show List.dropWhile isWs
        (' ' :: '/' :: '*' :: ' ' :: (base ++ [' ', '*', '/'])) = _
    rw [List.dropWhile_cons, if_pos (by simp [hsp]),
      List.dropWhile_cons, if_neg (by simp [hsl])]
  have hrev : ('/' :: '*' :: ' ' :: (base ++ [' ', '*', '/']) : List Char)
      = ('/' :: '*' :: ' ' :: (base ++ [' ', '*'])) ++ ['/'] := by simp
  rw [h1, hrev, List.reverse_append, List.reverse_singleton,
    List.singleton_append, List.dropWhile_cons, if_neg (by simp [hsl]),
    List.reverse_cons, List.reverse_reverse, ← hrev]
  rfl

theorem jsTrim_commentTextFor (tbl : List ColorMapEntry) (l c h : ℚ)
    (a : Option ℚ) :
    jsTrim (commentTextFor tbl l c h a) =
      (commentTextFor tbl l c h a).drop 1 := by
  show jsTrim ([' ', '/', '*', ' '] ++ baseCommentText tbl l c h a ++
      [' ', '*', '/']) = _
  rw [jsTrim_comment_shape]
  rfl

/-- **C10.**  When Annotate replaces an existing trailing comment that differs
from the new one, the edit starts after the whitespace gap (at the comment's
own first character) and stops at its last: applying it keeps the text before
the color, the gap whitespace and the rest of the line intact, and the
replacement text is the new comment without its leading space. -/
theorem c10_replace_edit_frame (tbl : List ColorMapEntry) (t : List Char)
    (pc : ParsedOklch) (w ex : List Char)
    (hpc : pc ∈ parseOklchFunctionsInRange t)
    (hca : commentAfter (lineTextAfter t pc.stop) = some (w, ex))
    (hne : ex ≠ jsTrim (commentTextFor tbl pc.l pc.c pc.h pc.alpha)) :
    annotateEditFor tbl t pc =
      some ⟨pc.stop + w.length, pc.stop + w.length + ex.length,
        jsTrim (commentTextFor tbl pc.l pc.c pc.h pc.alpha)⟩ ∧
    applyEdit1
        ⟨pc.stop + w.length, pc.stop + w.length + ex.length,
          jsTrim (commentTextFor tbl pc.l pc.c pc.h pc.alpha)⟩ t =
      (t.take pc.stop ++ w) ++
        jsTrim (commentTextFor tbl pc.l pc.c pc.h pc.alpha) ++
        t.drop (pc.stop + w.length + ex.length) ∧
    jsTrim (commentTextFor tbl pc.l pc.c pc.h pc.alpha) =
      (commentTextFor tbl pc.l pc.c pc.h pc.alpha).drop 1 := by
  obtain ⟨hw, hwm, inner, rest2, hex, hta⟩ := commentAfter_inv hca
  have hidx : indexOfList ex (lineTextAfter t pc.stop) = w.length := by
    rw [hta, hex]
    have hsh := @indexOfList_ws_head
      ('*' :: (inner ++ ['*', '/'])) rest2 w hwm
    simpa using hsh
  have h1 : annotateEditFor tbl t pc =
      some ⟨pc.stop + w.length, pc.stop + w.length + ex.length,
        jsTrim (commentTextFor tbl pc.l pc.c pc.h pc.alpha)⟩ := by
    unfold annotateEditFor
    simp only [hca]
    rw [if_neg hne, hidx]
  have htake : t.take (pc.stop + w.length) = t.take pc.stop ++ w := by
    have hdrop : ∃ z : List Char, t.drop pc.stop = w ++ z := by
      refine ⟨(ex ++ rest2) ++
        (t.drop pc.stop).dropWhile (fun c => !(c = '\n' || c = '\r')), ?_⟩
      conv_lhs => rw [← List.takeWhile_append_dropWhile
        (p := fun c => !(c = '\n' || c = '\r')) (l := t.drop pc.stop)]
      have hla : (t.drop pc.stop).takeWhile (fun c => !(c = '\n' || c = '\r'))
          = lineTextAfter t pc.stop := rfl
      rw [hla, hta]
      simp
    obtain ⟨z, hz⟩ := hdrop
    rw [List.take_add, hz]
    have h2 : (w ++ z).take w.length = w := List.take_left w z
    rw [h2]
  refine ⟨h1, ?_, jsTrim_commentTextFor tbl pc.l pc.c pc.h pc.alpha⟩
  show t.take (pc.stop + w.length) ++ _ ++ t.drop (pc.stop + w.length + ex.length)
      = _
  rw [htake]

theorem seg_split {i n b : ℕ} (t : List Char) (h1 : i ≤ n) (h2 : n ≤ b) :
    (t.drop i).take (b - i) =
      (t.drop i).take (n - i) ++ (t.drop n).take (b - n) := by
  have hb : b - i = (n - i) + (b - n) := by omega
  rw [hb, List.take_add, List.drop_drop]
  have h3 : i + (n - i) = n := by omega
  rw [h3]

theorem spliceFrom_split {t : List Char} {es : List Edit} {i n : ℕ}
    (h1 : i ≤ n) (hn : n ≤ t.length) (hord : editsOrdered n es) :
    spliceFrom t i es = (t.drop i).take (n - i) ++ spliceFrom t n es := by
  cases es with
  | nil =>
    show t.drop i = (t.drop i).take (n - i) ++ t.drop n
    have h3 : t.drop n = (t.drop i).drop (n - i) := by
      rw [List.drop_drop]
      congr 1
      omega
    rw [h3, List.take_append_drop]
  | cons e es =>
    obtain ⟨hlo, hse, hord'⟩ := hord
    show (t.drop i).take (e.start - i) ++ e.txt ++ spliceFrom t e.stop es =
      (t.drop i).take (n - i) ++
        ((t.drop n).take (e.start - n) ++ e.txt ++ spliceFrom t e.stop es)
    rw [seg_split t h1 hlo]
    simp [List.append_assoc]

theorem spliceFrom_take {t : List Char} {es : List Edit} {n : ℕ}
    (hn : n ≤ t.length) (hord : editsOrdered n es) :
    (spliceFrom t 0 es).take n = t.take n := by
  rw [spliceFrom_split (Nat.zero_le n) hn hord]
  simp only [List.drop_zero, Nat.sub_zero]
  have hlen : (t.take n).length = n := by
    simp [List.length_take]
    omega
  rw [List.take_left' hlen]

theorem spliceFrom_drop {t : List Char} {es : List Edit} {n : ℕ}
    (hn : n ≤ t.length) (hord : editsOrdered n es) :
    (spliceFrom t 0 es).drop n = spliceFrom t n es := by
  rw [spliceFrom_split (Nat.zero_le n) hn hord]
  simp only [List.drop_zero, Nat.sub_zero]
  have hlen : (t.take n).length = n := by
    simp [List.length_take]
    omega
  rw [List.drop_left' hlen]

theorem editsOrdered_mono : ∀ {lo lo' : ℕ} {es : List Edit},
    lo' ≤ lo → editsOrdered lo es → editsOrdered lo' es := by
  intro lo lo' es h he
  cases es with
  | nil => trivial
  | cons e es =>
    obtain ⟨h1, h2, h3⟩ := he
    exact ⟨by omega, h2, h3⟩

theorem editsOrdered_lb : ∀ {lo : ℕ} {es : List Edit},
    editsOrdered lo es → ∀ e ∈ es, lo ≤ e.start := by
  intro lo es
  induction es generalizing lo with
  | nil => intro _ e he; simp at he
  | cons f fs ih =>
    intro h e he
    obtain ⟨h1, h2, h3⟩ := h
    rcases List.mem_cons.mp he with he | he
    · subst he; exact h1
    · have := ih h3 e he
      omega

theorem ordered_pairwise : ∀ {lo : ℕ} {es : List Edit}, editsOrdered lo es →
    es.Pairwise (fun a b => a.stop ≤ b.start) := by
  intro lo es
  induction es generalizing lo with
  | nil => intro _; simp
  | cons e es ih =>
    intro h
    obtain ⟨h1, h2, h3⟩ := h
    exact List.Pairwise.cons (fun b hb => editsOrdered_lb h3 b hb) (ih h3)

theorem pairwiseDisj_iff {es : List Edit} :
    pairwiseDisj es = true ↔ es.Pairwise (fun a b => a.disj b = true) := by
  induction es with
  | nil => simp [pairwiseDisj]
  | cons e es ih =>
    show (es.all (fun f => e.disj f) && pairwiseDisj es) = true ↔ _
    rw [Bool.and_eq_true, List.all_eq_true, ih, List.pairwise_cons]

theorem ordered_disj_reverse {es : List Edit} (h : editsOrdered 0 es) :
    pairwiseDisj es.reverse = true := by
  rw [pairwiseDisj_iff, List.pairwise_reverse]
  refine (ordered_pairwise h).imp ?_
  intro a b hab
  show (b.disj a) = true
  simp only [Edit.disj, Bool.or_eq_true, decide_eq_true_eq]
  omega

theorem editsOrdered_wf : ∀ {lo : ℕ} {es : List Edit},
    editsOrdered lo es → ∀ e ∈ es, e.start ≤ e.stop := by
  intro lo es
  induction es generalizing lo with
  | nil => intro _ e he; simp at he
  | cons f fs ih =>
    intro h e he
    obtain ⟨h1, h2, h3⟩ := h
    rcases List.mem_cons.mp he with he | he
    · subst he; exact h2
    · exact ih h3 e he

theorem ordered_chain_desc {es : List Edit} (h : editsOrdered 0 es) :
    es.reverse.Chain' (fun a b => b.start ≤ a.start) := by
  have hp : es.reverse.Pairwise (fun a b => b.start ≤ a.start) := by
    rw [List.pairwise_reverse]
    refine List.Pairwise.imp_of_mem ?_ (ordered_pairwise h)
    intro a b ha hb hab
    show a.start ≤ b.start
    have hwf := editsOrdered_wf h a ha
    omega
  exact hp.chain'

theorem sortEditsDesc_id : ∀ {es : List Edit},
    es.Chain' (fun a b => b.start ≤ a.start) → sortEditsDesc es = es := by
  intro es
  induction es with
  | nil => intro _; rfl
  | cons e es ih =>
    intro h
    obtain ⟨hhead, htail⟩ := List.chain'_cons'.mp h
    show insertEditDesc e (sortEditsDesc es) = e :: es
    rw [ih htail]
    cases es with
    | nil => rfl
    | cons f fs =>
      show (if f.start ≤ e.start then e :: f :: fs else f :: insertEditDesc e fs)
        = e :: f :: fs
      rw [if_pos (hhead f rfl)]

theorem foldl_splice {t : List Char} : ∀ {es : List Edit},
    editsOrdered 0 es → (∀ e ∈ es, e.stop ≤ t.length) →
    es.reverse.foldl (fun acc e => applyEdit1 e acc) t = spliceFrom t 0 es := by
  intro es
  induction es with
  | nil => intro _ _; rfl
  | cons e es ih =>
    intro hord hbd
    obtain ⟨h1, h2, h3⟩ := hord
    have hbde : e.stop ≤ t.length := hbd e (by simp)
    have hordst : editsOrdered e.start es := editsOrdered_mono h2 h3
    have hord0 : editsOrdered 0 es := editsOrdered_mono (Nat.zero_le _) h3
    have hbd' : ∀ f ∈ es, f.stop ≤ t.length := fun f hf => hbd f (by simp [hf])
    rw [List.reverse_cons, List.foldl_append, ih hord0 hbd']
    show applyEdit1 e (spliceFrom t 0 es) = _
    unfold applyEdit1
    rw [spliceFrom_take (by omega) hordst, spliceFrom_drop hbde h3]
    show t.take e.start ++ e.txt ++ spliceFrom t e.stop es
        = (t.drop 0).take (e.start - 0) ++ e.txt ++ spliceFrom t e.stop es
    simp

theorem bodyChars_class {m : MatchData} (hwf : MatchWf m) :
    ∀ d ∈ m.bodyChars, isWs d = true ∨ isNumC d = true ∨ isAlTok d = true ∨
      d = '/' ∨ d = ')' := by
  intro d hd
  unfold MatchData.bodyChars at hd
  simp only [List.append_assoc, List.mem_append, List.mem_singleton] at hd
  rcases hd with hd | hd | hd | hd | hd | hd | hd | hd | hd
  · exact Or.inl (hwf.ws1_ws d hd)
  · exact Or.inr (Or.inl (hwf.t1_num d hd))
  · exact Or.inl (hwf.ws2_ws d hd)
  · exact Or.inr (Or.inl (hwf.t2_num d hd))
  · exact Or.inl (hwf.ws3_ws d hd)
  · exact Or.inr (Or.inl (hwf.t3_num d hd))
  · unfold MatchData.alphaPart at hd
    cases hag : m.alphaGrp with
    | none => rw [hag] at hd; simp at hd
    | some g =>
      rw [hag] at hd
      simp only [Option.getD_some] at hd
      obtain ⟨wa, wb, run, hg, hwa, hwb, hrun, hrunal⟩ := hwf.alpha_shape g hag
      subst hg
      simp only [List.mem_append, List.mem_cons] at hd
      rcases hd with hd | hd | hd | hd
      · exact Or.inl (hwa d hd)
      · exact Or.inr (Or.inr (Or.inr (Or.inl hd)))
      · exact Or.inl (hwb d hd)
      · exact Or.inr (Or.inr (Or.inl (hrunal d hd)))
  · exact Or.inl (hwf.ws4_ws d hd)
  · exact Or.inr (Or.inr (Or.inr (Or.inr hd)))

theorem append_eq_split {A B C D : List Char} (h : A ++ B = C ++ D)
    (hlen : A.length ≤ C.length) : ∃ E, C = A ++ E ∧ B = E ++ D := by
  rcases List.append_eq_append_iff.mp h with ⟨a', ha1, ha2⟩ | ⟨c', hc1, hc2⟩
  · exact ⟨a', ha1, ha2⟩
  · have hlc : c' = [] := by
      have hl := congrArg List.length hc1
      simp at hl
      have : c'.length = 0 := by omega
      exact List.length_eq_zero.mp this
    subst hlc
    simp only [List.append_nil] at hc1
    simp only [List.nil_append] at hc2
    exact ⟨[], by simp [hc1], by simp [hc2]⟩

/-- Whether the regex fails at a given start position depends only on the
text up to (but not including) the next character that can appear in no part
of a match — in particular up to the `o` that starts the next `oklch(`
literal. -/
theorem tryMatch_none_transfer {b : Char} {x v v' : List Char}
    (hx : x ≠ [])
    (hb1 : b ∉ (['k', 'l', 'c', 'h', '('] : List Char))
    (hbw : isWs b = false) (hbn : isNumC b = false) (hba : isAlTok b = false)
    (hbs : b ≠ '/') (hbp : b ≠ ')')
    (h : tryMatch (x ++ b :: v) = none) : tryMatch (x ++ b :: v') = none := by
  cases hm : tryMatch (x ++ b :: v') with
  | none => rfl
  | some m =>
    exfalso
    have hwf := tryMatch_inv hm
    have hs := tryMatch_sound hm
    by_cases hlen : m.core.length ≤ x.length
    · obtain ⟨E, hE1, hE2⟩ := append_eq_split hs.symm hlen
      have hsucc : tryMatch (x ++ b :: v) = some { m with rest := E ++ b :: v } := by
        rw [hE1, List.append_assoc]
        exact tryMatch_core_append hwf (E ++ b :: v)
      rw [h] at hsucc
      exact absurd hsucc (by simp)
    · push_neg at hlen
      obtain ⟨E, hE1, hE2⟩ := append_eq_split hs (by omega)
      have hEne : E ≠ [] := by
        intro hE
        subst hE
        rw [List.append_nil] at hE1
        have := congrArg List.length hE1
        omega
      obtain ⟨e0, E1, hE0⟩ := List.exists_cons_of_ne_nil hEne
      subst hE0
      have hbe : e0 = b := by
        rw [List.cons_append] at hE2
        injection hE2 with h1 _
        exact h1.symm
      subst hbe
      have hbmem : e0 ∈ m.core.drop 1 := by
        obtain ⟨x0, x1, hx0⟩ := List.exists_cons_of_ne_nil hx
        rw [hE1, hx0]
        simp
      rw [MatchData.core_eq] at hbmem
      have hdrop : (oklchLit ++ m.bodyChars).drop 1
          = ['k', 'l', 'c', 'h', '('] ++ m.bodyChars := rfl
      rw [hdrop, List.mem_append] at hbmem
      rcases hbmem with hbm | hbm
      · exact hb1 hbm
      · rcases bodyChars_class hwf e0 hbm with hc | hc | hc | hc | hc
        · rw [hbw] at hc; exact absurd hc (by simp)
        · rw [hbn] at hc; exact absurd hc (by simp)
        · rw [hba] at hc; exact absurd hc (by simp)
        · exact hbs hc
        · exact hbp hc

/-- No match can start inside a block comment that contains no `(` and ends
with `*/`: a match needs its `(` inside the comment, or would have to contain
the comment's `*` or start at its closing `/`. -/
theorem comment_pos_fail {cmt cont : List Char} {j : ℕ}
    (h1 : ('(' : Char) ∉ cmt) (h2 : ∃ Y, cmt = Y ++ ['*', '/'])
    (hj : j < cmt.length) :
    tryMatch (cmt.drop j ++ cont) = none := by
  cases hm : tryMatch (cmt.drop j ++ cont) with
  | none => rfl
  | some m =>
    exfalso
    have hwf := tryMatch_inv hm
    have hs := tryMatch_sound hm
    by_cases hlen : m.core.length ≤ (cmt.drop j).length
    · obtain ⟨E, hE1, hE2⟩ := append_eq_split hs.symm hlen
      have hparen : ('(' : Char) ∈ m.core := by
        rw [MatchData.core_eq]
        exact List.mem_append_left _ (by decide)
      have hpd : ('(' : Char) ∈ cmt.drop j := by
        rw [hE1]
        exact List.mem_append_left _ hparen
      exact h1 (List.drop_subset j cmt hpd)
    · push_neg at hlen
      obtain ⟨E, hE1, hE2⟩ := append_eq_split hs (by omega)
      obtain ⟨Y, hY⟩ := h2
      by_cases hjy : j ≤ Y.length
      · have hstar : ('*' : Char) ∈ cmt.drop j := by
          rw [hY, List.drop_append_of_le_length hjy]
          exact List.mem_append_right _ (by decide)
        have hstarcore : ('*' : Char) ∈ m.core := by
          rw [hE1]
          exact List.mem_append_left _ hstar
        rw [MatchData.core_eq, List.mem_append] at hstarcore
        rcases hstarcore with hsm | hsm
        · exact absurd hsm (by decide)
        · rcases bodyChars_class hwf '*' hsm with hcx | hcx | hcx | hcx | hcx <;>
            exact absurd hcx (by decide)
      · have hcl : cmt.length = Y.length + 2 := by
          rw [hY]
          simp
        have hj2 : j = Y.length + 1 := by omega
        have hdropj : cmt.drop j = ['/'] := by
          rw [hY, hj2, show Y.length + 1 = Y.length + 1 from rfl]
          have := @List.drop_append Char Y ['*', '/'] 1
          rw [this]
          rfl
        rw [hdropj, MatchData.core_eq] at hE1
        rw [show oklchLit ++ m.bodyChars
            = 'o' :: ('k' :: 'l' :: 'c' :: 'h' :: '(' :: m.bodyChars) from rfl] at hE1
        rw [show (['/'] : List Char) ++ E = '/' :: E from rfl] at hE1
        injection hE1 with hc _
        exact absurd hc (by decide)

theorem findColorName_mem {l c h : ℚ} {tbl : List ColorMapEntry} {n : List Char}
    (hf : findColorName l c h tbl = some n) : ∃ e ∈ tbl, e.name = n := by
  induction tbl with
  | nil => simp [findColorName] at hf
  | cons e es ih =>
    unfold findColorName at hf
    split at hf
    · injection hf with hf
      exact ⟨e, List.mem_cons_self e es, hf⟩
    · obtain ⟨f, hfm, hfn⟩ := ih hf
      exact ⟨f, List.mem_cons_of_mem _ hfm, hfn⟩

theorem digit_okChar {c : Char} (h : c.isDigit = true) : okChar c = true := by
  have h1 : c ≠ '(' := fun he => absurd (he ▸ h) (by decide)
  have h2 : c ≠ '*' := fun he => absurd (he ▸ h) (by decide)
  have h3 : c ≠ '\n' := fun he => absurd (he ▸ h) (by decide)
  have h4 : c ≠ '\r' := fun he => absurd (he ▸ h) (by decide)
  simp [okChar, h1, h2, h3, h4]

theorem okLabel_mem {xs : List Char} (h : okLabel xs = true) :
    ∀ x ∈ xs, x ≠ '(' ∧ x ≠ '*' ∧ x ≠ '\n' ∧ x ≠ '\r' := by
  intro x hx
  unfold okLabel at h
  rw [List.all_eq_true] at h
  have hc := h x hx
  unfold okChar at hc
  simp only [Bool.not_eq_true', Bool.or_eq_false_iff, decide_eq_false_iff_not] at hc
  exact ⟨hc.1.1.1, hc.1.1.2, hc.1.2, hc.2⟩

theorem okLabel_append {a b : List Char} :
    okLabel (a ++ b) = (okLabel a && okLabel b) := by
  simp [okLabel, List.all_append]

theorem jsRound100_nonneg {q : ℚ} (h : 0 ≤ q) : 0 ≤ jsRound100 q := by
  unfold jsRound100
  apply Int.ediv_nonneg
  · have h1 : 0 ≤ q.num := Rat.num_nonneg.mpr h
    have h2 : (0 : ℤ) ≤ (q.den : ℤ) := Int.ofNat_nonneg _
    omega
  · exact Int.ofNat_nonneg _

theorem okLabel_base {tbl : List ColorMapEntry} {l c h : ℚ} {alpha : Option ℚ}
    (hb : benignTbl tbl = true) (ha : ∀ a ∈ alpha, 0 ≤ a) :
    okLabel (baseCommentText tbl l c h alpha) = true := by
  have hbase : okLabel ((findColorName l c h tbl).getD customLabel) = true := by
    cases hf : findColorName l c h tbl with
    | none =>
      simp only [Option.getD_none]
      decide
    | some n =>
      obtain ⟨e, hm, hn⟩ := findColorName_mem hf
      simp only [Option.getD_some]
      rw [← hn]
      unfold benignTbl at hb
      rw [List.all_eq_true] at hb
      exact hb e hm
  unfold baseCommentText
  cases alpha with
  | none => simpa using hbase
  | some a =>
    simp only
    by_cases hone : (!approxEqual a 1 (mkRat 1 1000)) = true
    · rw [if_pos hone]
      have hnn : 0 ≤ a := ha a rfl
      have hro := jsRound100_nonneg hnn
      have hic : intChars (jsRound100 a) = natDigits (jsRound100 a).natAbs := by
        unfold intChars
        rw [if_neg (by omega)]
      rw [hic, okLabel_append, okLabel_append, okLabel_append]
      have hdig : okLabel (natDigits (jsRound100 a).natAbs) = true := by
        unfold okLabel
        rw [List.all_eq_true]
        intro x hx
        exact digit_okChar (natDigits_all_digit _ x hx)
      rw [hbase, hdig]
      decide
    · rw [if_neg hone]
      exact hbase

theorem cmt_no_paren {tbl : List ColorMapEntry} {l c h : ℚ} {alpha : Option ℚ}
    (hok : okLabel (baseCommentText tbl l c h alpha) = true) :
    ('(' : Char) ∉ commentTextFor tbl l c h alpha := by
  intro hmem
  unfold commentTextFor at hmem
  simp only [List.append_assoc, List.mem_append] at hmem
  rcases hmem with hm | hm | hm
  · exact absurd hm (by decide)
  · exact (okLabel_mem hok '(' hm).1 rfl
  · exact absurd hm (by decide)

theorem cmt_ends_close (tbl : List ColorMapEntry) (l c h : ℚ) (alpha : Option ℚ) :
    ∃ Y, commentTextFor tbl l c h alpha = Y ++ ['*', '/'] := by
  refine ⟨[' ', '/', '*', ' '] ++ baseCommentText tbl l c h alpha ++ [' '], ?_⟩
  unfold commentTextFor
  simp

theorem cmt_notNl {tbl : List ColorMapEntry} {l c h : ℚ} {alpha : Option ℚ}
    (hok : okLabel (baseCommentText tbl l c h alpha) = true) :
    ∀ x ∈ commentTextFor tbl l c h alpha,
      (!(x = '\n' || x = '\r')) = true := by
  intro x hx
  unfold commentTextFor at hx
  simp only [List.append_assoc, List.mem_append] at hx
  have hxn : x ≠ '\n' ∧ x ≠ '\r' := by
    rcases hx with hm | hm | hm
    · fin_cases hm <;> exact ⟨by decide, by decide⟩
    · exact ⟨(okLabel_mem hok x hm).2.2.1, (okLabel_mem hok x hm).2.2.2⟩
    · fin_cases hm <;> exact ⟨by decide, by decide⟩
  simp [hxn.1, hxn.2]

theorem splitCommentClose_closed {inner : List Char} (h : ∀ x ∈ inner, x ≠ '*') :
    ∀ z, splitCommentClose (inner ++ '*' :: '/' :: z) = some (inner, z) := by
  induction inner with
  | nil => intro z; rfl
  | cons c t ih =>
    intro z
    have hc : c ≠ '*' := h c (by simp)
    rw [List.cons_append, splitCommentClose.eq_def]
    split
    · rename_i u heq
      injection heq with h1 _
      exact absurd h1 hc
    · rename_i hnc heq
      injection heq with h1 h2
      subst h1
      subst h2
      rw [ih (fun x hx => h x (by simp [hx])) z]
      rfl
    · rename_i heq
      exact absurd heq (by simp)

/-- Looking for a trailing comment right at an inserted comment finds exactly
that comment: one space of gap, then the trimmed comment text. -/
theorem commentAfter_cmt {tbl : List ColorMapEntry} {l c h : ℚ} {alpha : Option ℚ}
    (hok : okLabel (baseCommentText tbl l c h alpha) = true) (z : List Char) :
    commentAfter (commentTextFor tbl l c h alpha ++ z) =
      some ([' '], (commentTextFor tbl l c h alpha).drop 1) := by
  have hsp : isWs ' ' = true := by decide
  have hsl : isWs '/' = false := by decide
  have hshape : commentTextFor tbl l c h alpha ++ z
      = ' ' :: '/' :: '*' :: ((' ' :: baseCommentText tbl l c h alpha ++ [' '])
          ++ '*' :: '/' :: z) := by
    unfold commentTextFor
    simp
  have hstar : ∀ x ∈ (' ' :: baseCommentText tbl l c h alpha ++ [' ']), x ≠ '*' := by
    intro x hx
    rcases List.mem_cons.mp hx with hx | hx
    · subst hx; decide
    · rcases List.mem_append.mp hx with hx | hx
      · exact (okLabel_mem hok x hx).2.1
      · simp at hx; subst hx; decide
  have hdw : (' ' :: '/' :: '*' :: ((' ' :: baseCommentText tbl l c h alpha ++ [' '])
        ++ '*' :: '/' :: z) : List Char).dropWhile isWs
      = '/' :: '*' :: ((' ' :: baseCommentText tbl l c h alpha ++ [' '])
          ++ '*' :: '/' :: z) := by
    rw [List.dropWhile_cons, if_pos (by simp [hsp]), List.dropWhile_cons,
      if_neg (by simp [hsl])]
  have htw : (' ' :: '/' :: '*' :: ((' ' :: baseCommentText tbl l c h alpha ++ [' '])
        ++ '*' :: '/' :: z) : List Char).takeWhile isWs = [' '] := by
    rw [List.takeWhile_cons, if_pos (by simp [hsp]), List.takeWhile_cons,
      if_neg (by simp [hsl])]
  rw [hshape]
  simp only [commentAfter, hdw, splitCommentClose_closed hstar z, htw]
  unfold commentTextFor
  simp

/-- The first match of a scan splits the text into an all-failing gap, the
matched span, and the remainder. -/
theorem scan_head_decomp : ∀ {s : List Char} {pos p : ℕ} {m : MatchData}
    {tl : List (ℕ × MatchData)}, scan s pos = (p, m) :: tl →
    ∃ g, s = g ++ (m.core ++ m.rest) ∧ p = pos + g.length ∧
      (∀ j < g.length, tryMatch (s.drop j) = none) ∧
      tl = scan m.rest (p + m.klen) ∧ MatchWf m := by
  have key : ∀ s pos, ∀ p (m : MatchData) tl, scan s pos = (p, m) :: tl →
      ∃ g, s = g ++ (m.core ++ m.rest) ∧ p = pos + g.length ∧
        (∀ j < g.length, tryMatch (s.drop j) = none) ∧
        tl = scan m.rest (p + m.klen) ∧ MatchWf m := by
    refine scan_induction ?_ ?_ ?_
    · intro pos p m tl h
      simp [scan, scanF] at h
    · intro c s pos m' hm' ih p m tl h
      rw [scan_match pos hm'] at h
      injection h with h1 h2
      injection h1 with h1a h1b
      subst h1a
      subst h1b
      subst h2
      refine ⟨[], by simpa using tryMatch_sound hm', by simp, ?_, rfl,
        tryMatch_inv hm'⟩
      intro j hj
      simp at hj
    · intro c s pos hm ih p m tl h
      rw [scan_nomatch pos hm] at h
      obtain ⟨g, hdec, hp, hfail, htl, hwf⟩ := ih p m tl h
      refine ⟨c :: g, by simp [hdec], by simp [hp]; omega, ?_, htl, hwf⟩
      intro j hj
      cases j with
      | zero => simpa using hm
      | succ j =>
        have hj' : j < g.length := by simp at hj; omega
        have := hfail j hj'
        simpa using this
  intro s pos p m tl h
  exact key s pos p m tl h

/-- An empty scan means the regex fails at every start position. -/
theorem scan_nil_fail : ∀ {s : List Char} {pos : ℕ}, scan s pos = [] →
    ∀ j, tryMatch (s.drop j) = none := by
  have key : ∀ s pos, scan s pos = [] → ∀ j, tryMatch (s.drop j) = none := by
    refine scan_induction ?_ ?_ ?_
    · intro pos _ j
      simp [tryMatch]
    · intro c s pos m hm ih h
      rw [scan_match pos hm] at h
      exact absurd h (by simp)
    · intro c s pos hm ih h j
      rw [scan_nomatch pos hm] at h
      cases j with
      | zero => simpa using hm
      | succ j =>
        have := ih h j
        simpa using this
  intro s pos h j
  exact key s pos h j

/-- Emission does not look at the suffix after the match: the same match data
before a different continuation emits the same color, relocated. -/
theorem emitColor_shift (pos pos' : ℕ) (m : MatchData) (z : List Char) :
    emitColor pos' { m with rest := z }
      = (emitColor pos m).map
          (fun pc => { pc with start := pos', stop := pos' + m.klen }) := by
  unfold emitColor
  dsimp only
  cases parseFloatPrefix m.t1 with
  | none => rfl
  | some l =>
    cases parseFloatPrefix m.t2 with
    | none => rfl
    | some c =>
      cases parseFloatPrefix m.t3 with
      | none => rfl
      | some hq =>
        cases hag : m.alphaGrp with
        | none =>
          simp [MatchData.klen, MatchData.core, MatchData.alphaPart, hag]
        | some g =>
          cases halpha : alphaOfGroup g with
          | none =>
            simp [MatchData.klen, MatchData.core, MatchData.alphaPart, hag, halpha]
          | some a =>
            simp [MatchData.klen, MatchData.core, MatchData.alphaPart, hag, halpha]

/-- Scanning skips over a segment at whose positions the regex fails. -/
theorem scan_gap {g r : List Char} : ∀ (pos : ℕ),
    (∀ j < g.length, tryMatch (g.drop j ++ r) = none) →
    scan (g ++ r) pos = scan r (pos + g.length) := by
  induction g with
  | nil => intro pos _; simp
  | cons c gt ih =>
    intro pos hfail
    have h0 : tryMatch (c :: (gt ++ r)) = none := by
      have := hfail 0 (by simp)
      simpa using this
    rw [List.cons_append, scan_nomatch pos h0]
    rw [ih (pos + 1) (fun j hj => by
      have hf := hfail (j + 1) (by simp; omega)
      simpa using hf)]
    congr 1
    simp
    omega

theorem annotInsF_congr (tbl : List ColorMapEntry) : ∀ {f1 f2 : ℕ}
    {s : List Char}, s.length ≤ f1 → s.length ≤ f2 →
    annotInsF tbl f1 s = annotInsF tbl f2 s := by
  intro f1
  induction f1 with
  | zero =>
    intro f2 s h1 h2
    have hs : s = [] := List.length_eq_zero.mp (by omega)
    subst hs
    cases f2 <;> rfl
  | succ f ih =>
    intro f2 s h1 h2
    cases s with
    | nil => cases f2 <;> rfl
    | cons c cs =>
      cases f2 with
      | zero => simp at h2
      | succ g =>
        show (match tryMatch (c :: cs) with
          | some m =>
            match emitColor 0 m with
            | some pc => m.core ++ commentTextFor tbl pc.l pc.c pc.h pc.alpha ++
                annotInsF tbl f m.rest
            | none => m.core ++ annotInsF tbl f m.rest
          | none => c :: annotInsF tbl f cs) =
          (match tryMatch (c :: cs) with
          | some m =>
            match emitColor 0 m with
            | some pc => m.core ++ commentTextFor tbl pc.l pc.c pc.h pc.alpha ++
                annotInsF tbl g m.rest
            | none => m.core ++ annotInsF tbl g m.rest
          | none => c :: annotInsF tbl g cs)
        cases hm : tryMatch (c :: cs) with
        | some m =>
          have hr := tryMatch_rest_lt hm
          have e := @ih g m.rest
            (by simp at hr h1 ⊢; omega) (by simp at hr h2 ⊢; omega)
          simp only [e]
        | none =>
          have e := @ih g cs
            (by simp at h1 ⊢; omega) (by simp at h2 ⊢; omega)
          simp only [e]

theorem annotIns_match_emit {s : List Char} {m : MatchData} {pc : ParsedOklch}
    (tbl : List ColorMapEntry)
    (hm : tryMatch s = some m) (he : emitColor 0 m = some pc) :
    annotIns tbl s = m.core ++ commentTextFor tbl pc.l pc.c pc.h pc.alpha ++
      annotIns tbl m.rest := by
  cases s with
  | nil => exact absurd hm (by simp [tryMatch])
  | cons c cs =>
    have hr := tryMatch_rest_lt hm
    show annotInsF tbl (c :: cs).length (c :: cs) = _
    simp only [List.length_cons, annotInsF, hm, he]
    rw [annotInsF_congr tbl (by simp at hr ⊢; omega) le_rfl]
    rfl

theorem annotIns_match_skip {s : List Char} {m : MatchData}
    (tbl : List ColorMapEntry)
    (hm : tryMatch s = some m) (he : emitColor 0 m = none) :
    annotIns tbl s = m.core ++ annotIns tbl m.rest := by
  cases s with
  | nil => exact absurd hm (by simp [tryMatch])
  | cons c cs =>
    have hr := tryMatch_rest_lt hm
    show annotInsF tbl (c :: cs).length (c :: cs) = _
    simp only [List.length_cons, annotInsF, hm, he]
    rw [annotInsF_congr tbl (by simp at hr ⊢; omega) le_rfl]
    rfl

theorem annotIns_nomatch {c : Char} {s : List Char} (tbl : List ColorMapEntry)
    (hm : tryMatch (c :: s) = none) :
    annotIns tbl (c :: s) = c :: annotIns tbl s := by
  show annotInsF tbl (c :: s).length (c :: s) = _
  simp only [List.length_cons, annotInsF, hm]
  rfl

theorem insEditsF_congr (tbl : List ColorMapEntry) : ∀ {f1 f2 : ℕ} {pos : ℕ}
    {s : List Char}, s.length ≤ f1 → s.length ≤ f2 →
    insEditsF tbl f1 pos s = insEditsF tbl f2 pos s := by
  intro f1
  induction f1 with
  | zero =>
    intro f2 pos s h1 h2
    have hs : s = [] := List.length_eq_zero.mp (by omega)
    subst hs
    cases f2 <;> rfl
  | succ f ih =>
    intro f2 pos s h1 h2
    cases s with
    | nil => cases f2 <;> rfl
    | cons c cs =>
      cases f2 with
      | zero => simp at h2
      | succ g =>
        show (match tryMatch (c :: cs) with
          | some m =>
            match emitColor 0 m with
            | some pc =>
              (⟨pos + m.klen, pos + m.klen,
                commentTextFor tbl pc.l pc.c pc.h pc.alpha⟩ : Edit) ::
                insEditsF tbl f (pos + m.klen) m.rest
            | none => insEditsF tbl f (pos + m.klen) m.rest
          | none => insEditsF tbl f (pos + 1) cs) =
          (match tryMatch (c :: cs) with
          | some m =>
            match emitColor 0 m with
            | some pc =>
              (⟨pos + m.klen, pos + m.klen,
                commentTextFor tbl pc.l pc.c pc.h pc.alpha⟩ : Edit) ::
                insEditsF tbl g (pos + m.klen) m.rest
            | none => insEditsF tbl g (pos + m.klen) m.rest
          | none => insEditsF tbl g (pos + 1) cs)
        cases hm : tryMatch (c :: cs) with
        | some m =>
          have hr := tryMatch_rest_lt hm
          have e := @ih g (pos + m.klen) m.rest
            (by simp at hr h1 ⊢; omega) (by simp at hr h2 ⊢; omega)
          simp only [e]
        | none =>
          have e := @ih g (pos + 1) cs
            (by simp at h1 ⊢; omega) (by simp at h2 ⊢; omega)
          simp only [e]

theorem remEditsF_congr (tbl : List ColorMapEntry) : ∀ {f1 f2 : ℕ} {pos : ℕ}
    {s : List Char}, s.length ≤ f1 → s.length ≤ f2 →
    remEditsF tbl f1 pos s = remEditsF tbl f2 pos s := by
  intro f1
  induction f1 with
  | zero =>
    intro f2 pos s h1 h2
    have hs : s = [] := List.length_eq_zero.mp (by omega)
    subst hs
    cases f2 <;> rfl
  | succ f ih =>
    intro f2 pos s h1 h2
    cases s with
    | nil => cases f2 <;> rfl
    | cons c cs =>
      cases f2 with
      | zero => simp at h2
      | succ g =>
        show (match tryMatch (c :: cs) with
          | some m =>
            match emitColor 0 m with
            | some pc =>
              (⟨pos + m.klen,
                pos + m.klen +
                  (commentTextFor tbl pc.l pc.c pc.h pc.alpha).length,
                []⟩ : Edit) ::
                remEditsF tbl f
                  (pos + m.klen +
                    (commentTextFor tbl pc.l pc.c pc.h pc.alpha).length) m.rest
            | none => remEditsF tbl f (pos + m.klen) m.rest
          | none => remEditsF tbl f (pos + 1) cs) =
          (match tryMatch (c :: cs) with
          | some m =>
            match emitColor 0 m with
            | some pc =>
              (⟨pos + m.klen,
                pos + m.klen +
                  (commentTextFor tbl pc.l pc.c pc.h pc.alpha).length,
                []⟩ : Edit) ::
                remEditsF tbl g
                  (pos + m.klen +
                    (commentTextFor tbl pc.l pc.c pc.h pc.alpha).length) m.rest
            | none => remEditsF tbl g (pos + m.klen) m.rest
          | none => remEditsF tbl g (pos + 1) cs)
        cases hm : tryMatch (c :: cs) with
        | some m =>
          have hr := tryMatch_rest_lt hm
          have e1 : ∀ pc : ParsedOklch, remEditsF tbl f
              (pos + m.klen +
                (commentTextFor tbl pc.l pc.c pc.h pc.alpha).length) m.rest
              = remEditsF tbl g
                (pos + m.klen +
                  (commentTextFor tbl pc.l pc.c pc.h pc.alpha).length) m.rest :=
            fun pc => @ih g
              (pos + m.klen +
                (commentTextFor tbl pc.l pc.c pc.h pc.alpha).length) m.rest
              (by simp at hr h1 ⊢; omega) (by simp at hr h2 ⊢; omega)
          have e2 := @ih g (pos + m.klen) m.rest
            (by simp at hr h1 ⊢; omega) (by simp at hr h2 ⊢; omega)
          simp only [e1, e2]
        | none =>
          have e := @ih g (pos + 1) cs
            (by simp at h1 ⊢; omega) (by simp at h2 ⊢; omega)
          simp only [e]

theorem insEdits_match_emit {s : List Char} {m : MatchData} {pc : ParsedOklch}
    (tbl : List ColorMapEntry) (pos : ℕ)
    (hm : tryMatch s = some m) (he : emitColor 0 m = some pc) :
    insEditsF tbl s.length pos s =
      (⟨pos + m.klen, pos + m.klen,
        commentTextFor tbl pc.l pc.c pc.h pc.alpha⟩ : Edit) ::
        insEditsF tbl m.rest.length (pos + m.klen) m.rest := by
  cases s with
  | nil => exact absurd hm (by simp [tryMatch])
  | cons c cs =>
    have hr := tryMatch_rest_lt hm
    simp only [List.length_cons, insEditsF, hm, he]
    rw [insEditsF_congr tbl (by simp at hr ⊢; omega) le_rfl]

theorem insEdits_match_skip {s : List Char} {m : MatchData}
    (tbl : List ColorMapEntry) (pos : ℕ)
    (hm : tryMatch s = some m) (he : emitColor 0 m = none) :
    insEditsF tbl s.length pos s =
      insEditsF tbl m.rest.length (pos + m.klen) m.rest := by
  cases s with
  | nil => exact absurd hm (by simp [tryMatch])
  | cons c cs =>
    have hr := tryMatch_rest_lt hm
    simp only [List.length_cons, insEditsF, hm, he]
    rw [insEditsF_congr tbl (by simp at hr ⊢; omega) le_rfl]

theorem insEdits_nomatch {c : Char} {s : List Char}
    (tbl : List ColorMapEntry) (pos : ℕ) (hm : tryMatch (c :: s) = none) :
    insEditsF tbl (c :: s).length pos (c :: s) =
      insEditsF tbl s.length (pos + 1) s := by
  simp only [List.length_cons, insEditsF, hm]

theorem remEdits_match_emit {s : List Char} {m : MatchData} {pc : ParsedOklch}
    (tbl : List ColorMapEntry) (pos : ℕ)
    (hm : tryMatch s = some m) (he : emitColor 0 m = some pc) :
    remEditsF tbl s.length pos s =
      (⟨pos + m.klen,
        pos + m.klen + (commentTextFor tbl pc.l pc.c pc.h pc.alpha).length,
        []⟩ : Edit) ::
        remEditsF tbl m.rest.length
          (pos + m.klen + (commentTextFor tbl pc.l pc.c pc.h pc.alpha).length)
          m.rest := by
  cases s with
  | nil => exact absurd hm (by simp [tryMatch])
  | cons c cs =>
    have hr := tryMatch_rest_lt hm
    simp only [List.length_cons, remEditsF, hm, he]
    rw [remEditsF_congr tbl (by simp at hr ⊢; omega) le_rfl]

theorem remEdits_match_skip {s : List Char} {m : MatchData}
    (tbl : List ColorMapEntry) (pos : ℕ)
    (hm : tryMatch s = some m) (he : emitColor 0 m = none) :
    remEditsF tbl s.length pos s =
      remEditsF tbl m.rest.length (pos + m.klen) m.rest := by
  cases s with
  | nil => exact absurd hm (by simp [tryMatch])
  | cons c cs =>
    have hr := tryMatch_rest_lt hm
    simp only [List.length_cons, remEditsF, hm, he]
    rw [remEditsF_congr tbl (by simp at hr ⊢; omega) le_rfl]

theorem remEdits_nomatch {c : Char} {s : List Char}
    (tbl : List ColorMapEntry) (pos : ℕ) (hm : tryMatch (c :: s) = none) :
    remEditsF tbl (c :: s).length pos (c :: s) =
      remEditsF tbl s.length (pos + 1) s := by
  simp only [List.length_cons, remEditsF, hm]

theorem annotIns_gap (tbl : List ColorMapEntry) : ∀ {g r : List Char},
    (∀ j < g.length, tryMatch (g.drop j ++ r) = none) →
    annotIns tbl (g ++ r) = g ++ annotIns tbl r := by
  intro g
  induction g with
  | nil => intro r _; simp
  | cons c gt ih =>
    intro r hfail
    have h0 : tryMatch (c :: (gt ++ r)) = none := by
      simpa using hfail 0 (by simp)
    rw [List.cons_append, annotIns_nomatch tbl h0,
      ih (fun j hj => by simpa using hfail (j + 1) (by simp; omega))]
    rfl

theorem emitColor_alpha_nonneg {pos : ℕ} {m : MatchData} {pc : ParsedOklch}
    (h : emitColor pos m = some pc) : ∀ a ∈ pc.alpha, 0 ≤ a := by
  intro a ha
  have hinv := emitColor_inv h
  rw [hinv.2.2.2.2.1] at ha
  rw [Option.mem_def, Option.bind_eq_some] at ha
  obtain ⟨g, hg, hga⟩ := ha
  exact alphaOfGroup_nonneg hga

/-- `emitColor` at offset zero, in terms of `emitColor` at the match's
actual offset. -/
theorem emitColor_zero {pos : ℕ} {m : MatchData} :
    emitColor 0 m = (emitColor pos m).map
      (fun pc => { pc with start := 0, stop := 0 + m.klen }) := by
  have h := emitColor_shift pos 0 m m.rest
  simpa using h

/-- Annotate's per-suffix behaviour on a comment-free text: the computed
edits are the reference insertions, they are ordered and in bounds, and
splicing them in produces the reference annotated text. -/
theorem round1_insert (tbl : List ColorMapEntry) (t : List Char) :
    ∀ s pos, t.drop pos = s →
    (∀ pc ∈ (scan s pos).filterMap (fun pm => emitColor pm.1 pm.2),
      commentAfter (lineTextAfter t pc.stop) = none) →
    ((scan s pos).filterMap (fun pm => emitColor pm.1 pm.2)).filterMap
        (annotateEditFor tbl t) = insEditsF tbl s.length pos s ∧
    editsOrdered pos (insEditsF tbl s.length pos s) ∧
    (∀ e ∈ insEditsF tbl s.length pos s, e.stop ≤ t.length) ∧
    spliceFrom t pos (insEditsF tbl s.length pos s) = annotIns tbl s := by
  have main : ∀ s pos, t.drop pos = s →
      (∀ pc ∈ (scan s pos).filterMap (fun pm => emitColor pm.1 pm.2),
        commentAfter (lineTextAfter t pc.stop) = none) →
      ((scan s pos).filterMap (fun pm => emitColor pm.1 pm.2)).filterMap
          (annotateEditFor tbl t) = insEditsF tbl s.length pos s ∧
      editsOrdered pos (insEditsF tbl s.length pos s) ∧
      (∀ e ∈ insEditsF tbl s.length pos s, e.stop ≤ t.length) ∧
      spliceFrom t pos (insEditsF tbl s.length pos s) = annotIns tbl s := by
    refine scan_induction ?_ ?_ ?_
    · intro pos ht _
      refine ⟨by simp [scan, scanF, insEditsF], trivial, by simp [insEditsF], ?_⟩
      show t.drop pos = annotIns tbl []
      rw [ht]
      rfl
    · intro c s pos m hm ih ht hfree
      have hsound := tryMatch_sound hm
      have hpos_le : pos ≤ t.length := by
        by_contra hc
        push_neg at hc
        have hnil : t.drop pos = [] := List.drop_eq_nil_of_le (by omega)
        rw [ht] at hnil
        exact absurd hnil (by simp)
      have hlen2 : (t.drop pos).length = t.length - pos := List.length_drop pos t
      have hklen : m.klen + m.rest.length = s.length + 1 := by
        have hl := congrArg List.length hsound
        simp only [List.length_cons, List.length_append] at hl
        show m.core.length + m.rest.length = s.length + 1
        omega
      have hstop_le : pos + m.klen ≤ t.length := by
        rw [ht] at hlen2
        simp at hlen2
        omega
      have ht' : t.drop (pos + m.klen) = m.rest := by
        have hdd : (t.drop pos).drop m.klen = t.drop (pos + m.klen) :=
          List.drop_drop m.klen pos t
        rw [← hdd, ht, hsound]
        exact List.drop_left' rfl
      rw [scan_match pos hm] at hfree ⊢
      cases hemit : emitColor pos m with
      | some pc =>
        have hinv := emitColor_inv hemit
        have hstop : pc.stop = pos + m.klen := hinv.2.2.2.2.2.2
        have hemit0 : emitColor 0 m
            = some { pc with start := 0, stop := 0 + m.klen } := by
          rw [@emitColor_zero pos m, hemit]
          rfl
        have hfm : ((pos, m) :: scan m.rest (pos + m.klen)).filterMap
              (fun pm => emitColor pm.1 pm.2)
            = pc :: (scan m.rest (pos + m.klen)).filterMap
                (fun pm => emitColor pm.1 pm.2) := by
          rw [List.filterMap_cons]
          simp [hemit]
        rw [hfm] at hfree ⊢
        have hfree' : ∀ pc' ∈ (scan m.rest (pos + m.klen)).filterMap
            (fun pm => emitColor pm.1 pm.2),
            commentAfter (lineTextAfter t pc'.stop) = none :=
          fun pc' hpc' => hfree pc' (List.mem_cons_of_mem _ hpc')
        obtain ⟨ih1, ih2, ih3, ih4⟩ := ih ht' hfree'
        have heditFor : annotateEditFor tbl t pc
            = some ⟨pc.stop, pc.stop,
                commentTextFor tbl pc.l pc.c pc.h pc.alpha⟩ := by
          simp only [annotateEditFor, hfree pc (List.mem_cons_self _ _)]
        rw [insEdits_match_emit tbl pos hm hemit0]
        refine ⟨?_, ⟨(by omega : pos ≤ pos + m.klen),
          (le_rfl : pos + m.klen ≤ pos + m.klen), ih2⟩, ?_, ?_⟩
        · rw [List.filterMap_cons]
          simp only [heditFor, ih1, hstop]
        · intro e he
          rcases List.mem_cons.mp he with he | he
          · subst he
            exact hstop_le
          · exact ih3 e he
        · show (t.drop pos).take (pos + m.klen - pos) ++ _ ++
            spliceFrom t (pos + m.klen) _ = _
          rw [show pos + m.klen - pos = m.klen from by omega,
            annotIns_match_emit tbl hm hemit0, ht, hsound,
            List.take_left' (show m.core.length = m.klen from rfl), ih4]
      | none =>
        have hemit0 : emitColor 0 m = none := by
          rw [@emitColor_zero pos m, hemit]
          rfl
        have hfm : ((pos, m) :: scan m.rest (pos + m.klen)).filterMap
              (fun pm => emitColor pm.1 pm.2)
            = (scan m.rest (pos + m.klen)).filterMap
                (fun pm => emitColor pm.1 pm.2) := by
          rw [List.filterMap_cons]
          simp [hemit]
        rw [hfm] at hfree ⊢
        obtain ⟨ih1, ih2, ih3, ih4⟩ := ih ht' hfree
        rw [insEdits_match_skip tbl pos hm hemit0]
        refine ⟨ih1, editsOrdered_mono (by omega) ih2, ih3, ?_⟩
        rw [spliceFrom_split (by omega) hstop_le ih2, ih4,
          annotIns_match_skip tbl hm hemit0,
          show pos + m.klen - pos = m.klen from by omega, ht, hsound,
          List.take_left' (show m.core.length = m.klen from rfl)]
    · intro c s pos hm ih ht hfree
      have hpos_lt : pos < t.length := by
        by_contra hc
        push_neg at hc
        have hnil : t.drop pos = [] := List.drop_eq_nil_of_le (by omega)
        rw [ht] at hnil
        exact absurd hnil (by simp)
      have ht' : t.drop (pos + 1) = s := by
        have hdd : (t.drop pos).drop 1 = t.drop (pos + 1) :=
          List.drop_drop 1 pos t
        rw [← hdd, ht]
        rfl
      rw [scan_nomatch pos hm] at hfree ⊢
      rw [insEdits_nomatch tbl pos hm]
      obtain ⟨ih1, ih2, ih3, ih4⟩ := ih ht' hfree
      refine ⟨ih1, editsOrdered_mono (by omega) ih2, ih3, ?_⟩
      rw [spliceFrom_split (by omega) (by omega) ih2, ih4,
        annotIns_nomatch tbl hm,
        show pos + 1 - pos = 1 from by omega, ht]
      rfl
  exact main

theorem annotIns_id (tbl : List ColorMapEntry) : ∀ {s : List Char},
    (∀ j, tryMatch (s.drop j) = none) → annotIns tbl s = s := by
  intro s
  induction s with
  | nil => intro _; rfl
  | cons c cs ih =>
    intro hfail
    have h0 : tryMatch (c :: cs) = none := by simpa using hfail 0
    rw [annotIns_nomatch tbl h0, ih (fun j => by simpa using hfail (j + 1))]

theorem scan_all_fail : ∀ {s : List Char} (pos : ℕ),
    (∀ j, tryMatch (s.drop j) = none) → scan s pos = [] := by
  intro s
  induction s with
  | nil => intro pos _; rfl
  | cons c cs ih =>
    intro pos hfail
    have h0 : tryMatch (c :: cs) = none := by simpa using hfail 0
    rw [scan_nomatch pos h0]
    exact ih (pos + 1) (fun j => by simpa using hfail (j + 1))

theorem remEditsF_nil_of_fail (tbl : List ColorMapEntry) : ∀ {s : List Char}
    (pos : ℕ), (∀ j, tryMatch (s.drop j) = none) →
    remEditsF tbl s.length pos s = [] := by
  intro s
  induction s with
  | nil => intro pos _; rfl
  | cons c cs ih =>
    intro pos hfail
    have h0 : tryMatch (c :: cs) = none := by simpa using hfail 0
    rw [remEdits_nomatch tbl pos h0]
    exact ih (pos + 1) (fun j => by simpa using hfail (j + 1))

theorem remEditsF_gap (tbl : List ColorMapEntry) : ∀ {g r : List Char}
    (pos : ℕ), (∀ j < g.length, tryMatch (g.drop j ++ r) = none) →
    remEditsF tbl (g ++ r).length pos (g ++ r)
      = remEditsF tbl r.length (pos + g.length) r := by
  intro g
  induction g with
  | nil => intro r pos _; simp
  | cons c gt ih =>
    intro r pos hfail
    have h0 : tryMatch (c :: (gt ++ r)) = none := by
      simpa using hfail 0 (by simp)
    rw [List.cons_append, remEdits_nomatch tbl pos h0,
      ih (pos + 1) (fun j hj => by simpa using hfail (j + 1) (by simp; omega))]
    congr 1
    simp
    omega

theorem cmt_length_pos (tbl : List ColorMapEntry) (l c h : ℚ)
    (alpha : Option ℚ) : 0 < (commentTextFor tbl l c h alpha).length := by
  unfold commentTextFor
  simp

/-- Specialization of the failure transfer: a failing position strictly
before a match's span keeps failing when the text after that span changes. -/
theorem tryMatch_none_transfer_core {x v v' : List Char} {m : MatchData}
    (hx : x ≠ [])
    (h : tryMatch (x ++ (m.core ++ v)) = none) :
    tryMatch (x ++ (m.core ++ v')) = none := by
  rw [MatchData.core_eq] at h ⊢
  have he1 : (oklchLit ++ m.bodyChars) ++ v
      = 'o' :: (('k' :: 'l' :: 'c' :: 'h' :: '(' :: m.bodyChars) ++ v) := by
    simp [oklchLit]
  have he2 : (oklchLit ++ m.bodyChars) ++ v'
      = 'o' :: (('k' :: 'l' :: 'c' :: 'h' :: '(' :: m.bodyChars) ++ v') := by
    simp [oklchLit]
  rw [he1] at h
  rw [he2]
  exact tryMatch_none_transfer hx (by decide) (by decide) (by decide)
    (by decide) (by decide) (by decide) h

theorem drop_app2 (A B R : List Char) :
    (A ++ (B ++ R)).drop (A.length + B.length) = R := by
  rw [List.drop_append]
  exact List.drop_left' rfl

theorem drop_app3 (A B C R : List Char) :
    (A ++ (B ++ (C ++ R))).drop (A.length + (B.length + C.length)) = R := by
  rw [List.drop_append, List.drop_append]
  exact List.drop_left' rfl

theorem take_app2 (A B R : List Char) :
    (A ++ (B ++ R)).take (A.length + B.length) = A ++ B := by
  rw [List.take_append, List.take_left' rfl]

set_option maxHeartbeats 1600000 in
/-- RemoveAnnotations' per-suffix behaviour on the annotated text: the
computed edits are the reference deletions, they are ordered and in bounds,
and splicing them back out restores the original suffix. -/
theorem round2_remove (tbl : List ColorMapEntry) (hb : benignTbl tbl = true)
    (tp : List Char) : ∀ n : ℕ, ∀ s : List Char, ∀ pos : ℕ, s.length ≤ n →
    tp.drop pos = annotIns tbl s →
    ((scan (annotIns tbl s) pos).filterMap
        (fun pm => emitColor pm.1 pm.2)).filterMap (removeEditFor tp)
      = remEditsF tbl s.length pos s ∧
    editsOrdered pos (remEditsF tbl s.length pos s) ∧
    (∀ e ∈ remEditsF tbl s.length pos s, e.stop ≤ tp.length) ∧
    spliceFrom tp pos (remEditsF tbl s.length pos s) = s := by
  intro n
  induction n with
  | zero =>
    intro s pos hsn ht
    have hs : s = [] := List.length_eq_zero.mp (by omega)
    subst hs
    refine ⟨by simp [scan, scanF, annotIns, annotInsF, remEditsF], trivial,
      by simp [remEditsF], ?_⟩
    show tp.drop pos = ([] : List Char)
    rw [ht]
    rfl
  | succ n ihn =>
    intro s pos hsn ht
    cases hscan : scan s 0 with
    | nil =>
      have hfail := scan_nil_fail hscan
      have hid : annotIns tbl s = s := annotIns_id tbl hfail
      rw [hid] at ht ⊢
      rw [scan_all_fail pos hfail, remEditsF_nil_of_fail tbl pos hfail]
      exact ⟨rfl, trivial, by simp, ht⟩
    | cons pm tl =>
      obtain ⟨p0, m⟩ := pm
      obtain ⟨g, hdec, hp0, hgfail, htl, hwf⟩ := scan_head_decomp hscan
      have hmc : tryMatch (m.core ++ m.rest) = some m := by
        have h0 := tryMatch_core_append hwf m.rest
        simpa using h0
      have hklenpos := MatchData.klen_pos m
      have hlensum : s.length = g.length + (m.klen + m.rest.length) := by
        rw [hdec]
        simp [MatchData.klen]
      have hrest_le : m.rest.length ≤ n := by omega
      have hgfail' : ∀ j < g.length,
          tryMatch (g.drop j ++ (m.core ++ m.rest)) = none := by
        intro j hj
        have h0 := hgfail j hj
        rw [hdec, List.drop_append_of_le_length (by omega)] at h0
        exact h0
      have hgne : ∀ j < g.length, g.drop j ≠ [] := by
        intro j hj hnil
        have hl := congrArg List.length hnil
        simp at hl
        omega
      cases hemit0 : emitColor 0 m with
      | some pc0 =>
        have hnn : ∀ a ∈ pc0.alpha, 0 ≤ a := emitColor_alpha_nonneg hemit0
        have hok : okLabel (baseCommentText tbl pc0.l pc0.c pc0.h pc0.alpha)
            = true := okLabel_base hb hnn
        have hann : annotIns tbl s = g ++ (m.core ++
            (commentTextFor tbl pc0.l pc0.c pc0.h pc0.alpha ++
              annotIns tbl m.rest)) := by
          rw [hdec, annotIns_gap tbl hgfail',
            annotIns_match_emit tbl hmc hemit0]
          simp [List.append_assoc]
        have hgfail2 : ∀ j < g.length, tryMatch (g.drop j ++ (m.core ++
            (commentTextFor tbl pc0.l pc0.c pc0.h pc0.alpha ++
              annotIns tbl m.rest))) = none := by
          intro j hj
          exact tryMatch_none_transfer_core (hgne j hj) (hgfail' j hj)
        have hscan1 : scan (annotIns tbl s) pos
            = scan (m.core ++
                (commentTextFor tbl pc0.l pc0.c pc0.h pc0.alpha ++
                  annotIns tbl m.rest)) (pos + g.length) := by
          rw [hann]
          exact scan_gap pos hgfail2
        have hmc2 := tryMatch_core_append hwf
          (commentTextFor tbl pc0.l pc0.c pc0.h pc0.alpha ++ annotIns tbl m.rest)
        have hscan2 : scan (m.core ++
              (commentTextFor tbl pc0.l pc0.c pc0.h pc0.alpha ++
                annotIns tbl m.rest)) (pos + g.length)
            = (pos + g.length,
                { m with
                    rest := commentTextFor tbl pc0.l pc0.c pc0.h pc0.alpha ++
                      annotIns tbl m.rest }) ::
              scan (commentTextFor tbl pc0.l pc0.c pc0.h pc0.alpha ++
                annotIns tbl m.rest) (pos + g.length + m.klen) := by
          rw [scan_match _ hmc2]
          rfl
        have hcfail : ∀ j <
            (commentTextFor tbl pc0.l pc0.c pc0.h pc0.alpha).length,
            tryMatch ((commentTextFor tbl pc0.l pc0.c pc0.h pc0.alpha).drop j
              ++ annotIns tbl m.rest) = none := by
          intro j hj
          exact comment_pos_fail (cmt_no_paren hok)
            (cmt_ends_close tbl pc0.l pc0.c pc0.h pc0.alpha) hj
        have hscan3 : scan (commentTextFor tbl pc0.l pc0.c pc0.h pc0.alpha ++
              annotIns tbl m.rest) (pos + g.length + m.klen)
            = scan (annotIns tbl m.rest) (pos + g.length + m.klen +
                (commentTextFor tbl pc0.l pc0.c pc0.h pc0.alpha).length) :=
          scan_gap _ hcfail
        have hemitq : emitColor (pos + g.length)
            { m with
                rest := commentTextFor tbl pc0.l pc0.c pc0.h pc0.alpha ++
                  annotIns tbl m.rest }
            = some { pc0 with start := pos + g.length, stop := pos + g.length + m.klen } := by
          rw [emitColor_shift 0 (pos + g.length) m _, hemit0]
          rfl
        have hlen_tp : tp.length - pos = (annotIns tbl s).length := by
          have h0 := congrArg List.length ht
          rw [List.length_drop] at h0
          exact h0
        have hAIlen : (annotIns tbl s).length = g.length + (m.klen +
            ((commentTextFor tbl pc0.l pc0.c pc0.h pc0.alpha).length +
              (annotIns tbl m.rest).length)) := by
          rw [hann]
          simp [MatchData.klen]
        have hstop_le : pos + g.length + m.klen +
            (commentTextFor tbl pc0.l pc0.c pc0.h pc0.alpha).length
              ≤ tp.length := by omega
        have htrest : tp.drop (pos + g.length + m.klen +
            (commentTextFor tbl pc0.l pc0.c pc0.h pc0.alpha).length)
            = annotIns tbl m.rest := by
          have h1 : tp.drop (pos + g.length + m.klen +
              (commentTextFor tbl pc0.l pc0.c pc0.h pc0.alpha).length)
              = (tp.drop pos).drop (g.length + (m.core.length +
                (commentTextFor tbl pc0.l pc0.c pc0.h pc0.alpha).length)) := by
            rw [List.drop_drop]
            congr 1
            show _ = _ + _
            have hk : m.core.length = m.klen := rfl
            omega
          rw [h1, ht, hann]
          exact drop_app3 g m.core
            (commentTextFor tbl pc0.l pc0.c pc0.h pc0.alpha)
            (annotIns tbl m.rest)
        have hdrop2 : tp.drop (pos + g.length + m.klen)
            = commentTextFor tbl pc0.l pc0.c pc0.h pc0.alpha ++
              annotIns tbl m.rest := by
          have h1 : tp.drop (pos + g.length + m.klen)
              = (tp.drop pos).drop (g.length + m.core.length) := by
            rw [List.drop_drop]
            congr 1
            show _ = _ + _
            have hk : m.core.length = m.klen := rfl
            omega
          rw [h1, ht, hann]
          exact drop_app2 g m.core _
        have hline : lineTextAfter tp (pos + g.length + m.klen)
            = commentTextFor tbl pc0.l pc0.c pc0.h pc0.alpha ++
              (annotIns tbl m.rest).takeWhile
                (fun c => !(c = '\n' || c = '\r')) := by
          unfold lineTextAfter
          rw [hdrop2]
          exact takeWhile_append_all _ (cmt_notNl hok)
        have hrem : removeEditFor tp
            { pc0 with start := pos + g.length, stop := pos + g.length + m.klen }
            = some ⟨pos + g.length + m.klen,
                pos + g.length + m.klen +
                  (commentTextFor tbl pc0.l pc0.c pc0.h pc0.alpha).length,
                []⟩ := by
          have hcp := cmt_length_pos tbl pc0.l pc0.c pc0.h pc0.alpha
          simp only [removeEditFor]
          rw [hline, commentAfter_cmt hok _]
          simp only [List.length_cons, List.length_nil, List.length_drop]
          congr 2
          omega
        obtain ⟨ih1, ih2, ih3, ih4⟩ := ihn m.rest
          (pos + g.length + m.klen +
            (commentTextFor tbl pc0.l pc0.c pc0.h pc0.alpha).length)
          hrest_le htrest
        have hremE : remEditsF tbl s.length pos s
            = (⟨pos + g.length + m.klen,
                pos + g.length + m.klen +
                  (commentTextFor tbl pc0.l pc0.c pc0.h pc0.alpha).length,
                []⟩ : Edit) ::
              remEditsF tbl m.rest.length
                (pos + g.length + m.klen +
                  (commentTextFor tbl pc0.l pc0.c pc0.h pc0.alpha).length)
                m.rest := by
          conv_lhs => rw [hdec]
          rw [remEditsF_gap tbl pos hgfail',
            remEdits_match_emit tbl (pos + g.length) hmc hemit0]
        refine ⟨?_, ?_, ?_, ?_⟩
        · rw [hscan1, hscan2, hscan3, hremE]
          simp only [List.filterMap_cons, hemitq, hrem, ih1]
        · rw [hremE]
          exact ⟨(by omega : pos ≤ pos + g.length + m.klen),
            (by omega : pos + g.length + m.klen ≤ pos + g.length + m.klen +
              (commentTextFor tbl pc0.l pc0.c pc0.h pc0.alpha).length), ih2⟩
        · rw [hremE]
          intro e he
          rcases List.mem_cons.mp he with he | he
          · subst he
            exact hstop_le
          · exact ih3 e he
        · rw [hremE]
          show (tp.drop pos).take (pos + g.length + m.klen - pos) ++ _ ++
            spliceFrom tp _ _ = s
          rw [show pos + g.length + m.klen - pos
              = g.length + m.core.length from by
                have hk : m.core.length = m.klen := rfl
                omega]
          rw [ht, hann, take_app2 g m.core _, ih4, hdec]
          simp
      | none =>
        have hann : annotIns tbl s = g ++ (m.core ++ annotIns tbl m.rest) := by
          rw [hdec, annotIns_gap tbl hgfail',
            annotIns_match_skip tbl hmc hemit0]
        have hgfail2 : ∀ j < g.length, tryMatch (g.drop j ++ (m.core ++
            annotIns tbl m.rest)) = none := by
          intro j hj
          exact tryMatch_none_transfer_core (hgne j hj) (hgfail' j hj)
        have hscan1 : scan (annotIns tbl s) pos
            = scan (m.core ++ annotIns tbl m.rest) (pos + g.length) := by
          rw [hann]
          exact scan_gap pos hgfail2
        have hmc2 := tryMatch_core_append hwf (annotIns tbl m.rest)
        have hscan2 : scan (m.core ++ annotIns tbl m.rest) (pos + g.length)
            = (pos + g.length, { m with rest := annotIns tbl m.rest }) ::
              scan (annotIns tbl m.rest) (pos + g.length + m.klen) := by
          rw [scan_match _ hmc2]
          rfl
        have hemitq : emitColor (pos + g.length)
            { m with rest := annotIns tbl m.rest } = none := by
          rw [emitColor_shift 0 (pos + g.length) m _, hemit0]
          rfl
        have hlen_tp : tp.length - pos = (annotIns tbl s).length := by
          have h0 := congrArg List.length ht
          rw [List.length_drop] at h0
          exact h0
        have hAIlen : (annotIns tbl s).length = g.length + (m.klen +
            (annotIns tbl m.rest).length) := by
          rw [hann]
          simp [MatchData.klen]
        have hstop_le : pos + g.length + m.klen ≤ tp.length := by omega
        have htrest : tp.drop (pos + g.length + m.klen)
            = annotIns tbl m.rest := by
          have h1 : tp.drop (pos + g.length + m.klen)
              = (tp.drop pos).drop (g.length + m.core.length) := by
            rw [List.drop_drop]
            congr 1
            show _ = _ + _
            have hk : m.core.length = m.klen := rfl
            omega
          rw [h1, ht, hann]
          exact drop_app2 g m.core _
        obtain ⟨ih1, ih2, ih3, ih4⟩ := ihn m.rest (pos + g.length + m.klen)
          hrest_le htrest
        have hremE : remEditsF tbl s.length pos s
            = remEditsF tbl m.rest.length (pos + g.length + m.klen) m.rest := by
          conv_lhs => rw [hdec]
          rw [remEditsF_gap tbl pos hgfail',
            remEdits_match_skip tbl (pos + g.length) hmc hemit0]
        refine ⟨?_, ?_, ?_, ?_⟩
        · rw [hscan1, hscan2, hremE]
          simp only [List.filterMap_cons, hemitq, ih1]
        · rw [hremE]
          exact editsOrdered_mono (by omega) ih2
        · rw [hremE]
          exact ih3
        · rw [hremE]
          rw [spliceFrom_split (by omega) hstop_le ih2, ih4]
          rw [show pos + g.length + m.klen - pos
              = g.length + m.core.length from by
                have hk : m.core.length = m.klen := rfl
                omega]
          rw [ht, hann, take_app2 g m.core _, hdec]
          simp

/-- `applyEdit` on the reversed batch of an ascending, in-bounds,
non-overlapping edit list is the splice description. -/
theorem applyDesc_splice {t : List Char} {es : List Edit}
    (hord : editsOrdered 0 es) (hbd : ∀ e ∈ es, e.stop ≤ t.length) :
    applyEditBatch es.reverse t = spliceFrom t 0 es := by
  unfold applyEditBatch
  rw [if_pos (ordered_disj_reverse hord)]
  unfold applyEditsDesc
  rw [sortEditsDesc_id (ordered_chain_desc hord)]
  exact foldl_splice hord hbd

/-- On a comment-free text, one Annotate run equals the reference
description: the comment text inserted right after each emitted match. -/
theorem annotateRun_comment_free (tbl : List ColorMapEntry) (t : List Char)
    (hfree : ∀ pc ∈ parseOklchFunctionsInRange t,
      commentAfter (lineTextAfter t pc.stop) = none) :
    annotateRun tbl t = annotIns tbl t := by
  obtain ⟨h1, h2, h3, h4⟩ := round1_insert tbl t t 0 (by simp) hfree
  unfold annotateRun annotateEdits
  rw [List.filterMap_reverse]
  show applyEditBatch (((scan t 0).filterMap
      (fun pm => emitColor pm.1 pm.2)).filterMap
        (annotateEditFor tbl t)).reverse t = _
  rw [h1, applyDesc_splice h2 h3, h4]

/-- RemoveAnnotations undoes the reference annotation exactly. -/
theorem removeRun_annotIns (tbl : List ColorMapEntry)
    (hb : benignTbl tbl = true) (t : List Char) :
    removeAnnotationsRun (annotIns tbl t) = t := by
  obtain ⟨h1, h2, h3, h4⟩ := round2_remove tbl hb (annotIns tbl t) t.length t 0
    le_rfl (by simp)
  unfold removeAnnotationsRun removeEdits
  rw [List.filterMap_reverse]
  show applyEditBatch (((scan (annotIns tbl t) 0).filterMap
      (fun pm => emitColor pm.1 pm.2)).filterMap
        (removeEditFor (annotIns tbl t))).reverse (annotIns tbl t) = _
  rw [h1, applyDesc_splice h2 h3, h4]

/-- Rejected batches leave the document unchanged. -/
theorem applyEditBatch_reject {es : List Edit} {t : List Char}
    (h : pairwiseDisj es = false) : applyEditBatch es t = t := by
  unfold applyEditBatch
  rw [if_neg (by simp [h])]

set_option maxHeartbeats 1600000 in
/-- A second Annotate pass over the annotated text computes no edits: every
color it finds is followed by exactly the comment it would build. -/
theorem round2_annotate (tbl : List ColorMapEntry) (hb : benignTbl tbl = true)
    (tp : List Char) : ∀ n : ℕ, ∀ s : List Char, ∀ pos : ℕ, s.length ≤ n →
    tp.drop pos = annotIns tbl s →
    ((scan (annotIns tbl s) pos).filterMap
        (fun pm => emitColor pm.1 pm.2)).filterMap (annotateEditFor tbl tp)
      = [] := by
  intro n
  induction n with
  | zero =>
    intro s pos hsn ht
    have hs : s = [] := List.length_eq_zero.mp (by omega)
    subst hs
    simp [scan, scanF, annotIns, annotInsF]
  | succ n ihn =>
    intro s pos hsn ht
    cases hscan : scan s 0 with
    | nil =>
      have hfail := scan_nil_fail hscan
      have hid : annotIns tbl s = s := annotIns_id tbl hfail
      rw [hid] at ht ⊢
      rw [scan_all_fail pos hfail]
      rfl
    | cons pm tl =>
      obtain ⟨p0, m⟩ := pm
      obtain ⟨g, hdec, hp0, hgfail, htl, hwf⟩ := scan_head_decomp hscan
      have hmc : tryMatch (m.core ++ m.rest) = some m := by
        have h0 := tryMatch_core_append hwf m.rest
        simpa using h0
      have hklenpos := MatchData.klen_pos m
      have hlensum : s.length = g.length + (m.klen + m.rest.length) := by
        rw [hdec]
        simp [MatchData.klen]
      have hrest_le : m.rest.length ≤ n := by omega
      have hgfail' : ∀ j < g.length,
          tryMatch (g.drop j ++ (m.core ++ m.rest)) = none := by
        intro j hj
        have h0 := hgfail j hj
        rw [hdec, List.drop_append_of_le_length (by omega)] at h0
        exact h0
      have hgne : ∀ j < g.length, g.drop j ≠ [] := by
        intro j hj hnil
        have hl := congrArg List.length hnil
        simp at hl
        omega
      cases hemit0 : emitColor 0 m with
      | some pc0 =>
        have hnn : ∀ a ∈ pc0.alpha, 0 ≤ a := emitColor_alpha_nonneg hemit0
        have hok : okLabel (baseCommentText tbl pc0.l pc0.c pc0.h pc0.alpha)
            = true := okLabel_base hb hnn
        have hann : annotIns tbl s = g ++ (m.core ++
            (commentTextFor tbl pc0.l pc0.c pc0.h pc0.alpha ++
              annotIns tbl m.rest)) := by
          rw [hdec, annotIns_gap tbl hgfail',
            annotIns_match_emit tbl hmc hemit0]
          simp [List.append_assoc]
        have hgfail2 : ∀ j < g.length, tryMatch (g.drop j ++ (m.core ++
            (commentTextFor tbl pc0.l pc0.c pc0.h pc0.alpha ++
              annotIns tbl m.rest))) = none := by
          intro j hj
          exact tryMatch_none_transfer_core (hgne j hj) (hgfail' j hj)
        have hscan1 : scan (annotIns tbl s) pos
            = scan (m.core ++
                (commentTextFor tbl pc0.l pc0.c pc0.h pc0.alpha ++
                  annotIns tbl m.rest)) (pos + g.length) := by
          rw [hann]
          exact scan_gap pos hgfail2
        have hmc2 := tryMatch_core_append hwf
          (commentTextFor tbl pc0.l pc0.c pc0.h pc0.alpha ++ annotIns tbl m.rest)
        have hscan2 : scan (m.core ++
              (commentTextFor tbl pc0.l pc0.c pc0.h pc0.alpha ++
                annotIns tbl m.rest)) (pos + g.length)
            = (pos + g.length,
                { m with
                    rest := commentTextFor tbl pc0.l pc0.c pc0.h pc0.alpha ++
                      annotIns tbl m.rest }) ::
              scan (commentTextFor tbl pc0.l pc0.c pc0.h pc0.alpha ++
                annotIns tbl m.rest) (pos + g.length + m.klen) := by
          rw [scan_match _ hmc2]
          rfl
        have hcfail : ∀ j <
            (commentTextFor tbl pc0.l pc0.c pc0.h pc0.alpha).length,
            tryMatch ((commentTextFor tbl pc0.l pc0.c pc0.h pc0.alpha).drop j
              ++ annotIns tbl m.rest) = none := by
          intro j hj
          exact comment_pos_fail (cmt_no_paren hok)
            (cmt_ends_close tbl pc0.l pc0.c pc0.h pc0.alpha) hj
        have hscan3 : scan (commentTextFor tbl pc0.l pc0.c pc0.h pc0.alpha ++
              annotIns tbl m.rest) (pos + g.length + m.klen)
            = scan (annotIns tbl m.rest) (pos + g.length + m.klen +
                (commentTextFor tbl pc0.l pc0.c pc0.h pc0.alpha).length) :=
          scan_gap _ hcfail
        have hemitq : emitColor (pos + g.length)
            { m with
                rest := commentTextFor tbl pc0.l pc0.c pc0.h pc0.alpha ++
                  annotIns tbl m.rest }
            = some { pc0 with start := pos + g.length, stop := pos + g.length + m.klen } := by
          rw [emitColor_shift 0 (pos + g.length) m _, hemit0]
          rfl
        have hdrop2 : tp.drop (pos + g.length + m.klen)
            = commentTextFor tbl pc0.l pc0.c pc0.h pc0.alpha ++
              annotIns tbl m.rest := by
          have h1 : tp.drop (pos + g.length + m.klen)
              = (tp.drop pos).drop (g.length + m.core.length) := by
            rw [List.drop_drop]
            congr 1
            show _ = _ + _
            have hk : m.core.length = m.klen := rfl
            omega
          rw [h1, ht, hann]
          exact drop_app2 g m.core _
        have hline : lineTextAfter tp (pos + g.length + m.klen)
            = commentTextFor tbl pc0.l pc0.c pc0.h pc0.alpha ++
              (annotIns tbl m.rest).takeWhile
                (fun c => !(c = '\n' || c = '\r')) := by
          unfold lineTextAfter
          rw [hdrop2]
          exact takeWhile_append_all _ (cmt_notNl hok)
        have htrest : tp.drop (pos + g.length + m.klen +
            (commentTextFor tbl pc0.l pc0.c pc0.h pc0.alpha).length)
            = annotIns tbl m.rest := by
          have h1 : tp.drop (pos + g.length + m.klen +
              (commentTextFor tbl pc0.l pc0.c pc0.h pc0.alpha).length)
              = (tp.drop pos).drop (g.length + (m.core.length +
                (commentTextFor tbl pc0.l pc0.c pc0.h pc0.alpha).length)) := by
            rw [List.drop_drop]
            congr 1
            show _ = _ + _
            have hk : m.core.length = m.klen := rfl
            omega
          rw [h1, ht, hann]
          exact drop_app3 g m.core
            (commentTextFor tbl pc0.l pc0.c pc0.h pc0.alpha)
            (annotIns tbl m.rest)
        have hnone : annotateEditFor tbl tp
            { pc0 with start := pos + g.length, stop := pos + g.length + m.klen }
            = none := by
          simp only [annotateEditFor]
          rw [hline, commentAfter_cmt hok _, jsTrim_commentTextFor]
          simp
        have ihc := ihn m.rest
          (pos + g.length + m.klen +
            (commentTextFor tbl pc0.l pc0.c pc0.h pc0.alpha).length)
          hrest_le htrest
        rw [hscan1, hscan2, hscan3]
        simp only [List.filterMap_cons, hemitq, hnone, ihc]
      | none =>
        have hann : annotIns tbl s = g ++ (m.core ++ annotIns tbl m.rest) := by
          rw [hdec, annotIns_gap tbl hgfail',
            annotIns_match_skip tbl hmc hemit0]
        have hgfail2 : ∀ j < g.length, tryMatch (g.drop j ++ (m.core ++
            annotIns tbl m.rest)) = none := by
          intro j hj
          exact tryMatch_none_transfer_core (hgne j hj) (hgfail' j hj)
        have hscan1 : scan (annotIns tbl s) pos
            = scan (m.core ++ annotIns tbl m.rest) (pos + g.length) := by
          rw [hann]
          exact scan_gap pos hgfail2
        have hmc2 := tryMatch_core_append hwf (annotIns tbl m.rest)
        have hscan2 : scan (m.core ++ annotIns tbl m.rest) (pos + g.length)
            = (pos + g.length, { m with rest := annotIns tbl m.rest }) ::
              scan (annotIns tbl m.rest) (pos + g.length + m.klen) := by
          rw [scan_match _ hmc2]
          rfl
        have hemitq : emitColor (pos + g.length)
            { m with rest := annotIns tbl m.rest } = none := by
          rw [emitColor_shift 0 (pos + g.length) m _, hemit0]
          rfl
        have htrest : tp.drop (pos + g.length + m.klen)
            = annotIns tbl m.rest := by
          have h1 : tp.drop (pos + g.length + m.klen)
              = (tp.drop pos).drop (g.length + m.core.length) := by
            rw [List.drop_drop]
            congr 1
            show _ = _ + _
            have hk : m.core.length = m.klen := rfl
            omega
          rw [h1, ht, hann]
          exact drop_app2 g m.core _
        have ihc := ihn m.rest (pos + g.length + m.klen) hrest_le htrest
        rw [hscan1, hscan2]
        simp only [List.filterMap_cons, hemitq, ihc]

/-- **C7 counterexample.**  On `oklch(1 2 3) /* oklch(4 5 6) */` the first
Annotate run computes a replacement range that overlaps the inner color's
insertion point, the batch is rejected by the editor, and the text comes back
unchanged — so a second run computes the same nonempty edit batch.  Annotate
is idempotent here only because the batch is rejected, not because the second
run computes no edits, refuting the claim's stated mechanism. -/
theorem c7_counterexample :
    annotateRun [] ("oklch(1 2 3) /* oklch(4 5 6) */".toList)
      = "oklch(1 2 3) /* oklch(4 5 6) */".toList ∧
    annotateEdits []
        (annotateRun [] ("oklch(1 2 3) /* oklch(4 5 6) */".toList)) ≠ [] := by
  decide

/-- **C7 (amended).**  Annotate is idempotent on every comment-free text: the
first run inserts each color's comment, the second run finds exactly the
comment it would build after every color and computes no edits, leaving the
text unchanged; moreover whenever a run's batch has overlapping ranges it is
rejected and the text is returned unchanged (so such runs are idempotent
trivially).  Palette names are assumed comment-safe, as `map.json`'s are. -/
theorem c7_amended_idempotent (tbl : List ColorMapEntry) (t : List Char)
    (hb : benignTbl tbl = true)
    (hfree : ∀ pc ∈ parseOklchFunctionsInRange t,
      commentAfter (lineTextAfter t pc.stop) = none) :
    annotateEdits tbl (annotateRun tbl t) = [] ∧
    annotateRun tbl (annotateRun tbl t) = annotateRun tbl t ∧
    (∀ u : List Char, pairwiseDisj (annotateEdits tbl u) = false →
      annotateRun tbl u = u) := by
  have hrun := annotateRun_comment_free tbl t hfree
  have hz := round2_annotate tbl hb (annotIns tbl t) t.length t 0 le_rfl
    (by simp)
  have hedits : annotateEdits tbl (annotateRun tbl t) = [] := by
    rw [hrun]
    unfold annotateEdits
    rw [List.filterMap_reverse]
    show (((scan (annotIns tbl t) 0).filterMap
        (fun pm => emitColor pm.1 pm.2)).filterMap
          (annotateEditFor tbl (annotIns tbl t))).reverse = _
    rw [hz]
    rfl
  refine ⟨hedits, ?_, ?_⟩
  · show applyEditBatch (annotateEdits tbl (annotateRun tbl t))
      (annotateRun tbl t) = annotateRun tbl t
    rw [hedits]
    rfl
  · intro u hu
    exact applyEditBatch_reject hu

/-- Witness for the amended C7: a one-entry palette and a comment-free
one-color text. -/
theorem c7_amended_witness :
    benignTbl [⟨"sky-500".toList, mkRat 685 1000, mkRat 169 1000,
      mkRat 237323 1000⟩] = true ∧
    (∀ pc ∈ parseOklchFunctionsInRange
        ("a: oklch(0.685 0.169 237.323);".toList),
      commentAfter (lineTextAfter ("a: oklch(0.685 0.169 237.323);".toList)
        pc.stop) = none) ∧
    (annotateEdits [⟨"sky-500".toList, mkRat 685 1000, mkRat 169 1000,
        mkRat 237323 1000⟩]
        (annotateRun [⟨"sky-500".toList, mkRat 685 1000, mkRat 169 1000,
          mkRat 237323 1000⟩] ("a: oklch(0.685 0.169 237.323);".toList)) = [] ∧
      annotateRun [⟨"sky-500".toList, mkRat 685 1000, mkRat 169 1000,
          mkRat 237323 1000⟩]
        (annotateRun [⟨"sky-500".toList, mkRat 685 1000, mkRat 169 1000,
          mkRat 237323 1000⟩] ("a: oklch(0.685 0.169 237.323);".toList))
        = annotateRun [⟨"sky-500".toList, mkRat 685 1000, mkRat 169 1000,
          mkRat 237323 1000⟩] ("a: oklch(0.685 0.169 237.323);".toList) ∧
      (∀ u : List Char, pairwiseDisj (annotateEdits [⟨"sky-500".toList,
          mkRat 685 1000, mkRat 169 1000, mkRat 237323 1000⟩] u) = false →
        annotateRun [⟨"sky-500".toList, mkRat 685 1000, mkRat 169 1000,
          mkRat 237323 1000⟩] u = u)) :=
  ⟨by decide, by decide,
    c7_amended_idempotent
      [⟨"sky-500".toList, mkRat 685 1000, mkRat 169 1000, mkRat 237323 1000⟩]
      ("a: oklch(0.685 0.169 237.323);".toList) (by decide) (by decide)⟩

/-- **C8.**  On a text in which no parsed color is followed on its line by a
block comment, RemoveAnnotations is a left inverse of Annotate: Annotate
inserts one ` /* label */` comment after each emitted color, and
RemoveAnnotations deletes each of them together with its leading whitespace,
restoring the original text exactly.  The palette names are assumed to render
safely into comments (no `(`, `*` or line separators), as the names shipped in
`map.json` do. -/
theorem c8_remove_undoes_annotate (tbl : List ColorMapEntry) (t : List Char)
    (hb : benignTbl tbl = true)
    (hfree : ∀ pc ∈ parseOklchFunctionsInRange t,
      commentAfter (lineTextAfter t pc.stop) = none) :
    removeAnnotationsRun (annotateRun tbl t) = t := by
  rw [annotateRun_comment_free tbl t hfree]
  exact removeRun_annotIns tbl hb t

/-- Witness for C8: a one-entry palette and a one-color text with trailing
context and no comments. -/
theorem c8_witness :
    benignTbl [⟨"sky-500".toList, mkRat 685 1000, mkRat 169 1000,
      mkRat 237323 1000⟩] = true ∧
    (∀ pc ∈ parseOklchFunctionsInRange ("a: oklch(0.5 0.2 200); b".toList),
      commentAfter (lineTextAfter ("a: oklch(0.5 0.2 200); b".toList) pc.stop)
        = none) ∧
    removeAnnotationsRun
      (annotateRun [⟨"sky-500".toList, mkRat 685 1000, mkRat 169 1000,
        mkRat 237323 1000⟩] ("a: oklch(0.5 0.2 200); b".toList))
      = "a: oklch(0.5 0.2 200); b".toList :=
  ⟨by decide, by decide,
    c8_remove_undoes_annotate
      [⟨"sky-500".toList, mkRat 685 1000, mkRat 169 1000, mkRat 237323 1000⟩]
      ("a: oklch(0.5 0.2 200); b".toList) (by decide) (by decide)⟩

/-- Witness for C10: `oklch(1 2 3) /* Old */` against the empty palette; the
stale comment `/* Old */` (preceded by a one-space gap) is replaced in place by
the trimmed new comment. -/
theorem c10_replace_edit_frame_witness :
    ((⟨1, 2, 3, none, none, 0, 12⟩ : ParsedOklch) ∈
      parseOklchFunctionsInRange ("oklch(1 2 3) /* Old */".toList)) ∧
    commentAfter (lineTextAfter ("oklch(1 2 3) /* Old */".toList) 12) =
      some ([' '], "/* Old */".toList) ∧
    "/* Old */".toList ≠ jsTrim (commentTextFor [] 1 2 3 none) ∧
    (annotateEditFor [] ("oklch(1 2 3) /* Old */".toList)
        ⟨1, 2, 3, none, none, 0, 12⟩ =
      some ⟨13, 22, jsTrim (commentTextFor [] 1 2 3 none)⟩ ∧
    applyEdit1 ⟨13, 22, jsTrim (commentTextFor [] 1 2 3 none)⟩
        ("oklch(1 2 3) /* Old */".toList) =
      (("oklch(1 2 3) /* Old */".toList).take 12 ++ [' ']) ++
        jsTrim (commentTextFor [] 1 2 3 none) ++
        ("oklch(1 2 3) /* Old */".toList).drop 22 ∧
    jsTrim (commentTextFor [] 1 2 3 none) =
      (commentTextFor [] 1 2 3 none).drop 1) :=
  ⟨by decide, by decide, by decide,
    c10_replace_edit_frame [] ("oklch(1 2 3) /* Old */".toList)
      ⟨1, 2, 3, none, none, 0, 12⟩ [' '] ("/* Old */".toList)
      (by decide) (by decide) (by decide)⟩

end TCR
